import Mathlib

/-!
Verification development for the incremental HTML structural synchronization
engine in HTMLInstrumentation.js (c9.ide.language.html.diff).

The engine's data model and operations are embedded shallowly:
mutable JS objects become immutable Lean structures, in-place mutation
becomes functional update, and JS dynamic typing is resolved using the
value shapes actually flowing through the code.  Document coordinates are
CodeMirror/ace style row and column pairs; JS numbers on these code paths
are integers, so coordinates are Int.
-/

namespace HTMLInstr

/-- A row and column document position, as used throughout the source. -/
structure Pos where
  row : Int
  column : Int
deriving DecidableEq, Repr

/-- Embeds ace's Range.comparePoints: p1.row - p2.row, falling back to
p1.column - p2.column when the row difference is zero (JS shortcut `or`
returns the first nonzero operand). -/
def comparePoints (p1 p2 : Pos) : Int :=
  if p1.row - p2.row ≠ 0 then p1.row - p2.row else p1.column - p2.column

/-- HTMLSimpleDOM node: a text run (no children array) or an element
(with a children array).  JS nodes without a tagID (text runs in the
session tree) are modelled with tagID 0, matching the JS falsiness tests
on node.tagID. -/
inductive SNode where
  | text (tagID : Int) (startPos endPos : Pos) (content : String)
  | elem (tag : String) (tagID : Int) (startPos endPos : Pos)
      (attributes : List (String × String)) (children : List SNode)
deriving Repr

/-- tagID of a node (elements and text runs both carry the field). -/
def SNode.nodeTagID : SNode → Int
  | .text id _ _ _ => id
  | .elem _ id _ _ _ _ => id

/-- startPos of a node. -/
def SNode.sPos : SNode → Pos
  | .text _ p _ _ => p
  | .elem _ _ p _ _ _ => p

/-- endPos of a node. -/
def SNode.ePos : SNode → Pos
  | .text _ _ p _ => p
  | .elem _ _ _ p _ _ => p

/-- JS `node.children` truthiness: only elements carry a children array. -/
def SNode.isElem : SNode → Bool
  | .text _ _ _ _ => false
  | .elem _ _ _ _ _ _ => true

/-- Children list of a node (empty for text runs, which have no array). -/
def SNode.childList : SNode → List SNode
  | .text _ _ _ _ => []
  | .elem _ _ _ _ _ cs => cs

/-- Structural induction principle for the nested node tree. -/
theorem SNode.inductionOn {P : SNode → Prop}
    (ht : ∀ id sp ep s, P (.text id sp ep s))
    (he : ∀ tag id sp ep attrs cs, (∀ c ∈ cs, P c) → P (.elem tag id sp ep attrs cs)) :
    ∀ t, P t
  | .text id sp ep s => ht id sp ep s
  | .elem tag id sp ep attrs cs =>
      he tag id sp ep attrs cs (fun c hc =>
        have : sizeOf c < 1 + sizeOf tag + sizeOf id + sizeOf sp + sizeOf ep +
            sizeOf attrs + sizeOf cs := by
          have h1 := List.sizeOf_lt_of_mem hc
          omega
        SNode.inductionOn ht he c)
termination_by t => sizeOf t

/-- An ace edit delta: a document range, an action string, and the
inserted or removed text (single line) or lines (multi line). -/
structure Delta where
  startP : Pos
  endP : Pos
  action : String
  dtext : Option String
  dlines : Option (List String)
deriving DecidableEq, Repr

/-- The sign computed in updatePositions from delta.action's first
character: 1 for insert actions, -1 otherwise. -/
def deltaSign (d : Delta) : Int :=
  if d.action.data.head? = some 'i' then 1 else -1

/-- The inner update closure of updatePositions: shift the column when
the position sits on the anchor row (the edit end row for deletions,
start row otherwise), then shift the row when there is a row change. -/
def updPos (sign : Int) (startP endP : Pos) (rowChange columnChange : Int)
    (p : Pos) : Pos :=
  let col := if p.row = (if sign = -1 then endP.row else startP.row)
    then p.column + columnChange else p.column
  let row := if rowChange ≠ 0 then p.row + rowChange else p.row
  ⟨row, col⟩

mutual

/-- The walk closure of updatePositions, translated branch for branch.
The source's `node.children.some(walk)` visits every child because walk
always returns a falsy value, so it is an in-order traversal here. -/
def updWalk (sign : Int) (startP endP : Pos) (rowChange columnChange : Int) :
    SNode → SNode
  | .text id sp ep s => .text id sp ep s
  | .elem tag id sp ep attrs cs =>
    if sign = 1 then
      if comparePoints startP sp < 0 then
        let sp2 := updPos sign startP endP rowChange columnChange sp
        let ep2 := updPos sign startP endP rowChange columnChange ep
        if rowChange = 0 ∧ sp2.row > startP.row then
          .elem tag id sp2 ep2 attrs cs
        else
          .elem tag id sp2 ep2 attrs (updWalkL sign startP endP rowChange columnChange cs)
      else if comparePoints startP ep < 0 then
        .elem tag id sp (updPos sign startP endP rowChange columnChange ep) attrs
          (updWalkL sign startP endP rowChange columnChange cs)
      else
        .elem tag id sp ep attrs cs
    else
      if comparePoints endP sp ≤ 0 then
        let sp2 := updPos sign startP endP rowChange columnChange sp
        let ep2 := updPos sign startP endP rowChange columnChange ep
        if rowChange = 0 ∧ sp2.row > endP.row then
          .elem tag id sp2 ep2 attrs cs
        else
          .elem tag id sp2 ep2 attrs (updWalkL sign startP endP rowChange columnChange cs)
      else if comparePoints startP ep ≤ 0 then
        .elem tag id sp (updPos sign startP endP rowChange columnChange ep) attrs
          (updWalkL sign startP endP rowChange columnChange cs)
      else
        .elem tag id sp ep attrs cs

/-- Walk over a children list, in document order. -/
def updWalkL (sign : Int) (startP endP : Pos) (rowChange columnChange : Int) :
    List SNode → List SNode
  | [] => []
  | c :: rest =>
      updWalk sign startP endP rowChange columnChange c ::
        updWalkL sign startP endP rowChange columnChange rest

end

/-- updatePositions(dom, delta) from the source, as a pure function on
the tree. -/
def updatePositions (dom : SNode) (delta : Delta) : SNode :=
  let startP := delta.startP
  let endP := delta.endP
  let sign := deltaSign delta
  let rowChange := sign * (endP.row - startP.row)
  let columnChange := sign * (endP.column - startP.column)
  updWalk sign startP endP rowChange columnChange dom

mutual

/-- Erase all position information from a tree, keeping structure, tag
names, tagIDs, attributes and text content.  Two trees have equal strips
exactly when they agree on everything except startPos and endPos. -/
def SNode.strip : SNode → SNode
  | .text id _ _ s => .text id ⟨0, 0⟩ ⟨0, 0⟩ s
  | .elem tag id _ _ attrs cs => .elem tag id ⟨0, 0⟩ ⟨0, 0⟩ attrs (SNode.stripL cs)

/-- Erase positions from every tree in a list. -/
def SNode.stripL : List SNode → List SNode
  | [] => []
  | c :: rest => SNode.strip c :: SNode.stripL rest

end

mutual

/-- Number of nodes in a tree (elements and text runs). -/
def nodeCount : SNode → Nat
  | .text _ _ _ _ => 1
  | .elem _ _ _ _ _ cs => 1 + nodeCountL cs

/-- Number of nodes in a list of trees. -/
def nodeCountL : List SNode → Nat
  | [] => 0
  | c :: rest => nodeCount c + nodeCountL rest

end

theorem updWalkL_strip (sign : Int) (startP endP : Pos) (rc cc : Int)
    (cs : List SNode)
    (h : ∀ c ∈ cs, (updWalk sign startP endP rc cc c).strip = c.strip) :
    SNode.stripL (updWalkL sign startP endP rc cc cs) = SNode.stripL cs := by
  induction cs with
  | nil => rfl
  | cons c rest ih =>
      simp only [updWalkL, SNode.stripL]
      rw [h c (by simp), ih fun d hd => h d (by simp [hd])]

theorem updWalk_strip (sign : Int) (startP endP : Pos) (rc cc : Int) :
    ∀ t, (updWalk sign startP endP rc cc t).strip = t.strip := by
  intro t
  induction t using SNode.inductionOn with
  | ht id sp ep s => rfl
  | he tag id sp ep attrs cs ih =>
      simp only [updWalk]
      have hL := updWalkL_strip sign startP endP rc cc cs ih
      split <;> split <;> first
        | rfl
        | (split <;> simp [SNode.strip, hL])

theorem updWalkL_count (sign : Int) (startP endP : Pos) (rc cc : Int)
    (cs : List SNode)
    (h : ∀ c ∈ cs, nodeCount (updWalk sign startP endP rc cc c) = nodeCount c) :
    nodeCountL (updWalkL sign startP endP rc cc cs) = nodeCountL cs := by
  induction cs with
  | nil => rfl
  | cons c rest ih =>
      simp only [updWalkL, nodeCountL]
      rw [h c (by simp), ih fun d hd => h d (by simp [hd])]

theorem updWalk_count (sign : Int) (startP endP : Pos) (rc cc : Int) :
    ∀ t, nodeCount (updWalk sign startP endP rc cc t) = nodeCount t := by
  intro t
  induction t using SNode.inductionOn with
  | ht id sp ep s => rfl
  | he tag id sp ep attrs cs ih =>
      simp only [updWalk]
      have hL := updWalkL_count sign startP endP rc cc cs ih
      split <;> split <;> first
        | rfl
        | (split <;> simp [nodeCount, hL])

/-- Claim C9: the position tracker (updatePositions) changes only
startPos and endPos coordinates: it never changes a tagID, the number of
nodes, a parent or children link, a tag name, attributes or text
content.  Equality of strips states exactly that the two trees agree on
everything except boundary coordinates. -/
theorem c9_updatePositions_frame (dom : SNode) (delta : Delta) :
    (updatePositions dom delta).strip = dom.strip ∧
      nodeCount (updatePositions dom delta) = nodeCount dom := by
  exact ⟨updWalk_strip _ _ _ _ _ dom, updWalk_count _ _ _ _ _ dom⟩

theorem cp_le_iff (a b : Pos) :
    comparePoints a b ≤ 0 ↔ (a.row < b.row ∨ (a.row = b.row ∧ a.column ≤ b.column)) := by
  simp only [comparePoints]
  split <;> omega

theorem cp_lt_iff (a b : Pos) :
    comparePoints a b < 0 ↔ (a.row < b.row ∨ (a.row = b.row ∧ a.column < b.column)) := by
  simp only [comparePoints]
  split <;> omega

theorem cp_le_trans {a b c : Pos} (h1 : comparePoints a b ≤ 0)
    (h2 : comparePoints b c ≤ 0) : comparePoints a c ≤ 0 := by
  rw [cp_le_iff] at h1 h2 ⊢
  omega

theorem cp_row_le {a b : Pos} (h : comparePoints a b ≤ 0) : a.row ≤ b.row := by
  rw [cp_le_iff] at h
  omega

/-- A direct child's span is contained in the bounds sp, ep; text runs
are unconstrained (the tracker never touches them). -/
def SNode.withinB (sp ep : Pos) : SNode → Bool
  | .text _ _ _ _ => true
  | .elem _ _ csp cep _ _ =>
      decide (comparePoints sp csp ≤ 0) && decide (comparePoints cep ep ≤ 0)

mutual

/-- Well-formed spans: every element's startPos precedes its endPos and
every child element's span nests inside its parent's span.  This is the
shape the parser produces (a tag's children lie between its open and
close tags). -/
def wfB : SNode → Bool
  | .text _ _ _ _ => true
  | .elem _ _ sp ep _ cs => decide (comparePoints sp ep ≤ 0) && wfChildren sp ep cs

/-- All children are well formed and nested inside the bounds. -/
def wfChildren (sp ep : Pos) : List SNode → Bool
  | [] => true
  | c :: rest => SNode.withinB sp ep c && wfB c && wfChildren sp ep rest

end

mutual

/-- All element boundary positions occurring in a tree. -/
def allBounds : SNode → List Pos
  | .text _ _ _ _ => []
  | .elem _ _ sp ep _ cs => sp :: ep :: allBoundsL cs

/-- All element boundary positions occurring in a list of trees. -/
def allBoundsL : List SNode → List Pos
  | [] => []
  | c :: rest => allBounds c ++ allBoundsL rest

end

/-- The amended shift applied to one boundary: the row moves by the row
delta, and the column moves by the column delta when the boundary sits
on the anchor row. -/
def shiftPt (anchorRow rowChange columnChange : Int) (p : Pos) : Pos :=
  ⟨p.row + rowChange, if p.row = anchorRow then p.column + columnChange else p.column⟩

/-- Start boundary transform stated from the (amended) spec: for an
insertion a start boundary strictly after the edit start shifts; for a
deletion a start boundary at or after the edit end shifts. -/
def mbS (sign : Int) (startP endP : Pos) (rc cc : Int) (p : Pos) : Pos :=
  if (if sign = 1 then comparePoints startP p < 0 else comparePoints endP p ≤ 0) then
    shiftPt (if sign = -1 then endP.row else startP.row) rc cc p
  else p

/-- End boundary transform stated from the (amended) spec: for an
insertion an end boundary strictly after the edit start shifts; for a
deletion an end boundary at or after the edit start shifts. -/
def mbE (sign : Int) (startP endP : Pos) (rc cc : Int) (p : Pos) : Pos :=
  if (if sign = 1 then comparePoints startP p < 0 else comparePoints startP p ≤ 0) then
    shiftPt (if sign = -1 then endP.row else startP.row) rc cc p
  else p

mutual

/-- The spec-side boundary map: apply the boundary transforms to every
element boundary of the tree, touching nothing else.  This is the
specification the position tracker is compared against. -/
def mapBounds (sign : Int) (startP endP : Pos) (rc cc : Int) : SNode → SNode
  | .text id sp ep s => .text id sp ep s
  | .elem tag id sp ep attrs cs =>
      .elem tag id (mbS sign startP endP rc cc sp) (mbE sign startP endP rc cc ep)
        attrs (mapBoundsL sign startP endP rc cc cs)

/-- Spec-side boundary map over a list of trees. -/
def mapBoundsL (sign : Int) (startP endP : Pos) (rc cc : Int) : List SNode → List SNode
  | [] => []
  | c :: rest => mapBounds sign startP endP rc cc c :: mapBoundsL sign startP endP rc cc rest

end

theorem cp_self (a : Pos) : comparePoints a a = 0 := by
  simp [comparePoints]

theorem cp_lt_le_trans {a b c : Pos} (h1 : comparePoints a b < 0)
    (h2 : comparePoints b c ≤ 0) : comparePoints a c < 0 := by
  rw [cp_lt_iff] at h1 ⊢
  rw [cp_le_iff] at h2
  omega

theorem cp_le_lt_trans {a b c : Pos} (h1 : comparePoints a b ≤ 0)
    (h2 : comparePoints b c < 0) : comparePoints a c < 0 := by
  rw [cp_le_iff] at h1
  rw [cp_lt_iff] at h2 ⊢
  omega

theorem cp_asymm {a b : Pos} (h : comparePoints a b ≤ 0) :
    ¬ comparePoints b a < 0 := by
  rw [cp_le_iff] at h
  rw [cp_lt_iff]
  omega

theorem cp_not_lt {a b : Pos} (h : ¬ comparePoints a b < 0) :
    comparePoints b a ≤ 0 := by
  rw [cp_lt_iff] at h
  rw [cp_le_iff]
  omega

theorem cp_not_le {a b : Pos} (h : ¬ comparePoints a b ≤ 0) :
    comparePoints b a < 0 := by
  rw [cp_le_iff] at h
  rw [cp_lt_iff]
  omega

theorem wfChildren_mem {sp ep : Pos} {cs : List SNode}
    (h : wfChildren sp ep cs = true) :
    ∀ c ∈ cs, SNode.withinB sp ep c = true ∧ wfB c = true := by
  induction cs with
  | nil => intro c hc; simp at hc
  | cons d rest ih =>
      simp only [wfChildren, Bool.and_eq_true] at h
      intro c hc
      rcases List.mem_cons.mp hc with rfl | hc
      · exact ⟨h.1.1, h.1.2⟩
      · exact ih h.2 c hc

theorem mem_allBoundsL {p : Pos} : ∀ {cs : List SNode},
    p ∈ allBoundsL cs ↔ ∃ c ∈ cs, p ∈ allBounds c := by
  intro cs
  induction cs with
  | nil => simp [allBoundsL]
  | cons c rest ih => simp [allBoundsL, List.mem_append, ih]

theorem allBounds_within : ∀ t : SNode, wfB t = true →
    ∀ p ∈ allBounds t, comparePoints t.sPos p ≤ 0 ∧ comparePoints p t.ePos ≤ 0 := by
  intro t
  induction t using SNode.inductionOn with
  | ht id sp ep s => intro _ p hp; simp [allBounds] at hp
  | he tag id sp ep attrs cs ih =>
      intro hw p hp
      simp only [wfB, Bool.and_eq_true, decide_eq_true_eq] at hw
      simp only [SNode.sPos, SNode.ePos]
      simp only [allBounds, List.mem_cons] at hp
      rcases hp with rfl | rfl | hp
      · exact ⟨le_of_eq (cp_self p), hw.1⟩
      · exact ⟨hw.1, le_of_eq (cp_self p)⟩
      · rcases mem_allBoundsL.mp hp with ⟨c, hc, hpc⟩
        rcases wfChildren_mem hw.2 c hc with ⟨hwin, hwf⟩
        cases c with
        | text cid csp cep cstr => simp [allBounds] at hpc
        | elem ctag cid csp cep cattrs ccs =>
            simp only [SNode.withinB, Bool.and_eq_true, decide_eq_true_eq] at hwin
            have hmid := ih _ hc hwf p hpc
            simp only [SNode.sPos, SNode.ePos] at hmid
            exact ⟨cp_le_trans hwin.1 hmid.1, cp_le_trans hmid.2 hwin.2⟩

theorem mapBoundsL_fix {sign : Int} {startP endP : Pos} {rc cc : Int}
    {cs : List SNode} (h : ∀ c ∈ cs, mapBounds sign startP endP rc cc c = c) :
    mapBoundsL sign startP endP rc cc cs = cs := by
  induction cs with
  | nil => rfl
  | cons c rest ih =>
      simp only [mapBoundsL]
      rw [h c (by simp), ih fun d hd => h d (by simp [hd])]

theorem mapBounds_fix {sign : Int} {startP endP : Pos} {rc cc : Int} :
    ∀ t : SNode, (∀ p ∈ allBounds t,
        mbS sign startP endP rc cc p = p ∧ mbE sign startP endP rc cc p = p) →
      mapBounds sign startP endP rc cc t = t := by
  intro t
  induction t using SNode.inductionOn with
  | ht id sp ep s => intro _; rfl
  | he tag id sp ep attrs cs ih =>
      intro h
      simp only [mapBounds]
      have hsp := h sp (by simp [allBounds])
      have hep := h ep (by simp [allBounds])
      rw [hsp.1, hep.2, mapBoundsL_fix]
      intro c hc
      exact ih c hc fun p hp =>
        h p (by simp [allBounds, mem_allBoundsL]; exact Or.inr (Or.inr ⟨c, hc, hp⟩))

theorem mb_fix_of_le {sign : Int} {startP endP : Pos} {rc cc : Int} {p : Pos}
    (hs : sign = 1) (h : comparePoints p startP ≤ 0) :
    mbS sign startP endP rc cc p = p ∧ mbE sign startP endP rc cc p = p := by
  subst hs
  constructor <;> simp [mbS, mbE, cp_asymm h]

theorem mb_fix_of_del {sign : Int} {startP endP : Pos} {rc cc : Int} {p : Pos}
    (hs : ¬ sign = 1) (hd : comparePoints startP endP ≤ 0)
    (h : comparePoints p startP < 0) :
    mbS sign startP endP rc cc p = p ∧ mbE sign startP endP rc cc p = p := by
  have h1 : ¬ comparePoints endP p ≤ 0 := by
    intro hle
    exact cp_asymm hd (cp_le_lt_trans hle h)
  have h2 : ¬ comparePoints startP p ≤ 0 := by
    intro hle
    exact cp_asymm hle h
  constructor <;> simp [mbS, mbE, hs, h1, h2]

theorem mb_fix_of_row {sign : Int} {startP endP : Pos} {cc : Int} {p : Pos}
    (hrow : ¬ p.row = (if sign = -1 then endP.row else startP.row)) :
    mbS sign startP endP 0 cc p = p ∧ mbE sign startP endP 0 cc p = p := by
  have hshift : shiftPt (if sign = -1 then endP.row else startP.row) 0 cc p = p := by
    simp [shiftPt, hrow]
  constructor <;> · simp only [mbS, mbE]; split <;> simp [hshift]

theorem updPos_eq_shiftPt (sign : Int) (startP endP : Pos) (rc cc : Int) (p : Pos) :
    updPos sign startP endP rc cc p =
      shiftPt (if sign = -1 then endP.row else startP.row) rc cc p := by
  simp only [updPos, shiftPt]
  split <;> simp_all

theorem updWalkL_eq {sign : Int} {startP endP : Pos} {rc cc : Int} {cs : List SNode}
    (h : ∀ c ∈ cs, updWalk sign startP endP rc cc c = mapBounds sign startP endP rc cc c) :
    updWalkL sign startP endP rc cc cs = mapBoundsL sign startP endP rc cc cs := by
  induction cs with
  | nil => rfl
  | cons c rest ih =>
      simp only [updWalkL, mapBoundsL]
      rw [h c (by simp), ih fun d hd => h d (by simp [hd])]

theorem children_fix {sign : Int} {startP endP : Pos} {rc cc : Int} {sp ep : Pos}
    {cs : List SNode} (hw : wfChildren sp ep cs = true)
    (hfix : ∀ p : Pos, comparePoints sp p ≤ 0 → comparePoints p ep ≤ 0 →
      mbS sign startP endP rc cc p = p ∧ mbE sign startP endP rc cc p = p) :
    mapBoundsL sign startP endP rc cc cs = cs := by
  apply mapBoundsL_fix
  intro c hc
  rcases wfChildren_mem hw c hc with ⟨hwin, hwf⟩
  apply mapBounds_fix
  intro p hp
  cases c with
  | text cid csp cep cstr => simp [allBounds] at hp
  | elem ctag cid csp cep cattrs ccs =>
      simp only [SNode.withinB, Bool.and_eq_true, decide_eq_true_eq] at hwin
      have hmid := allBounds_within _ hwf p hp
      simp only [SNode.sPos, SNode.ePos] at hmid
      exact hfix p (cp_le_trans hwin.1 hmid.1) (cp_le_trans hmid.2 hwin.2)

theorem updPos_row_of_rc0 (sign : Int) (startP endP : Pos) (cc : Int) (p : Pos) :
    (updPos sign startP endP 0 cc p).row = p.row := by
  simp [updPos]

theorem updWalk_eq_mapBounds {sign : Int} {startP endP : Pos} {rc cc : Int}
    (hd : comparePoints startP endP ≤ 0) :
    ∀ t : SNode, wfB t = true →
      updWalk sign startP endP rc cc t = mapBounds sign startP endP rc cc t := by
  intro t
  induction t using SNode.inductionOn with
  | ht id sp ep s => intro _; rfl
  | he tag id sp ep attrs cs ih =>
      intro hw
      simp only [wfB, Bool.and_eq_true, decide_eq_true_eq] at hw
      obtain ⟨hw1, hw2⟩ := hw
      have ihcs : ∀ c ∈ cs, updWalk sign startP endP rc cc c =
          mapBounds sign startP endP rc cc c :=
        fun c hc => ih c hc (wfChildren_mem hw2 c hc).2
      simp only [updWalk, mapBounds]
      by_cases hs : sign = 1
      · rw [if_pos hs]
        by_cases h1 : comparePoints startP sp < 0
        · rw [if_pos h1]
          have hspS : mbS sign startP endP rc cc sp =
              updPos sign startP endP rc cc sp := by
            simp [mbS, hs, h1, updPos_eq_shiftPt]
          have hepc : comparePoints startP ep < 0 := cp_lt_le_trans h1 hw1
          have hepE : mbE sign startP endP rc cc ep =
              updPos sign startP endP rc cc ep := by
            simp [mbE, hs, hepc, updPos_eq_shiftPt]
          split
          · next h2 =>
              obtain ⟨hrc, hrow⟩ := h2
              subst hrc
              rw [updPos_row_of_rc0] at hrow
              simp only [SNode.elem.injEq, true_and]
              refine ⟨hspS.symm, hepE.symm, ?_⟩
              refine (children_fix hw2 ?_).symm
              intro p hp1 _
              apply mb_fix_of_row
              have hr := cp_row_le hp1
              simp only [hs]
              norm_num
              omega
          · next h2 =>
              simp only [SNode.elem.injEq, true_and]
              exact ⟨hspS.symm, hepE.symm, updWalkL_eq ihcs⟩
        · rw [if_neg h1]
          have hspS : mbS sign startP endP rc cc sp = sp := by
            simp [mbS, hs, h1]
          by_cases h2 : comparePoints startP ep < 0
          · rw [if_pos h2]
            have hepE : mbE sign startP endP rc cc ep =
                updPos sign startP endP rc cc ep := by
              simp [mbE, hs, h2, updPos_eq_shiftPt]
            simp only [SNode.elem.injEq, true_and]
            exact ⟨hspS.symm, hepE.symm, updWalkL_eq ihcs⟩
          · rw [if_neg h2]
            have hepE : mbE sign startP endP rc cc ep = ep := by
              simp [mbE, hs, h2]
            simp only [SNode.elem.injEq, true_and]
            refine ⟨hspS.symm, hepE.symm, ?_⟩
            refine (children_fix hw2 ?_).symm
            intro p _ hp2
            exact mb_fix_of_le hs (cp_le_trans hp2 (cp_not_lt h2))
      · rw [if_neg hs]
        by_cases h1 : comparePoints endP sp ≤ 0
        · rw [if_pos h1]
          have hspS : mbS sign startP endP rc cc sp =
              updPos sign startP endP rc cc sp := by
            simp [mbS, hs, h1, updPos_eq_shiftPt]
          have hepc : comparePoints startP ep ≤ 0 :=
            cp_le_trans hd (cp_le_trans h1 hw1)
          have hepE : mbE sign startP endP rc cc ep =
              updPos sign startP endP rc cc ep := by
            simp [mbE, hs, hepc, updPos_eq_shiftPt]
          split
          · next h2 =>
              obtain ⟨hrc, hrow⟩ := h2
              subst hrc
              rw [updPos_row_of_rc0] at hrow
              simp only [SNode.elem.injEq, true_and]
              refine ⟨hspS.symm, hepE.symm, ?_⟩
              refine (children_fix hw2 ?_).symm
              intro p hp1 _
              apply mb_fix_of_row
              have hr := cp_row_le hp1
              have hdr := cp_row_le hd
              split <;> omega
          · next h2 =>
              simp only [SNode.elem.injEq, true_and]
              exact ⟨hspS.symm, hepE.symm, updWalkL_eq ihcs⟩
        · rw [if_neg h1]
          have hspS : mbS sign startP endP rc cc sp = sp := by
            simp [mbS, hs, h1]
          by_cases h2 : comparePoints startP ep ≤ 0
          · rw [if_pos h2]
            have hepE : mbE sign startP endP rc cc ep =
                updPos sign startP endP rc cc ep := by
              simp [mbE, hs, h2, updPos_eq_shiftPt]
            simp only [SNode.elem.injEq, true_and]
            exact ⟨hspS.symm, hepE.symm, updWalkL_eq ihcs⟩
          · rw [if_neg h2]
            have hepE : mbE sign startP endP rc cc ep = ep := by
              simp [mbE, hs, h2]
            simp only [SNode.elem.injEq, true_and]
            refine ⟨hspS.symm, hepE.symm, ?_⟩
            refine (children_fix hw2 ?_).symm
            intro p _ hp2
            exact mb_fix_of_del hs hd (cp_le_lt_trans hp2 (cp_not_le h2))

/-- The shift asserted by the claim for a single-line insertion of
length len at row r, column c: every boundary at row r whose column is
at or AFTER c moves right by len. -/
def claimInsShift (r c len : Int) (p : Pos) : Pos :=
  if p.row = r ∧ p.column ≥ c then ⟨p.row, p.column + len⟩ else p

mutual

/-- The claim's single-line-insertion effect applied to every node
boundary of the tree ("every boundary at row r with column at or after c
increases its column by len; no other boundary changes"). -/
def claimInsMap (r c len : Int) : SNode → SNode
  | .text id sp ep s =>
      .text id (claimInsShift r c len sp) (claimInsShift r c len ep) s
  | .elem tag id sp ep attrs cs =>
      .elem tag id (claimInsShift r c len sp) (claimInsShift r c len ep) attrs
        (claimInsMapL r c len cs)

/-- The claim's single-line-insertion effect over a list of trees. -/
def claimInsMapL (r c len : Int) : List SNode → List SNode
  | [] => []
  | c2 :: rest => claimInsMap r c len c2 :: claimInsMapL r c len rest

end

/-- Concrete tree for the C1 counterexample: a div spanning columns
0 to 20 of row 0 with a p child spanning columns 5 to 9. -/
def c1cexTree : SNode :=
  .elem "div" 1 ⟨0, 0⟩ ⟨0, 20⟩ [] [.elem "p" 2 ⟨0, 5⟩ ⟨0, 9⟩ [] []]

/-- Concrete delta for the C1 counterexample: insert the two-character
string ab at row 0, column 5 (the exact start boundary of the p child). -/
def c1cexDelta : Delta := ⟨⟨0, 5⟩, ⟨0, 7⟩, "insertText", some "ab", none⟩

/-- Concrete tree for the deletion half of the C1 counterexample: a p
child whose end boundary (0,2) coincides with the deletion start. -/
def c1cexTree2 : SNode :=
  .elem "div" 1 ⟨0, 0⟩ ⟨0, 9⟩ [] [.elem "p" 2 ⟨0, 1⟩ ⟨0, 2⟩ [] []]

/-- Concrete delta for the deletion half of the C1 counterexample:
remove the three characters between (0,2) and (0,5). -/
def c1cexDelta2 : Delta := ⟨⟨0, 2⟩, ⟨0, 5⟩, "removeText", some "xyz", none⟩

/-- Counterexample to claim C1 as stated.  Insertion half: inserting
"ab" (length 2) at (0,5) must, per the claim, move the boundary at
row 0 column 5 (column ≥ 5) to column 7; the code leaves it at column 5
(it only moves boundaries strictly after the edit start).  Deletion
half: the claim anchors the deletion shift at the edit end (0,5), so the
p child's end boundary (0,2), strictly before the end, must not change;
the code moves it to column -1 (end boundaries are shifted whenever they
are at or after the edit START). -/
theorem c1_counterexample :
    c1cexDelta.action = "insertText" ∧ c1cexDelta.dtext = some "ab" ∧
    c1cexDelta.startP = ⟨0, 5⟩ ∧ c1cexDelta.endP = ⟨0, 7⟩ ∧
    updatePositions c1cexTree c1cexDelta ≠ claimInsMap 0 5 2 c1cexTree ∧
    c1cexDelta2.action = "removeText" ∧
    c1cexDelta2.startP = ⟨0, 2⟩ ∧ c1cexDelta2.endP = ⟨0, 5⟩ ∧
    c1cexTree2.childList.head?.map SNode.ePos = some ⟨0, 2⟩ ∧
    (updatePositions c1cexTree2 c1cexDelta2).childList.head?.map SNode.ePos =
      some ⟨0, -1⟩ := by
  refine ⟨rfl, rfl, rfl, rfl, ?_, rfl, rfl, rfl, rfl, rfl⟩
  intro h
  have h2 := congrArg (fun t => t.childList.head?.map SNode.sPos) h
  have e1 : (updatePositions c1cexTree c1cexDelta).childList.head?.map SNode.sPos =
      some (⟨0, 5⟩ : Pos) := rfl
  have e2 : (claimInsMap 0 5 2 c1cexTree).childList.head?.map SNode.sPos =
      some (⟨0, 7⟩ : Pos) := rfl
  simp only [e1, e2] at h2
  exact absurd h2 (by decide)

/-- Claim C1 (amended): on a well-formed tree (element spans nested
inside their parents) and a well-formed edit range (start at or before
end), updatePositions moves exactly the element boundaries, as follows.
For an insertion, a boundary STRICTLY after the edit start shifts its
row by the row delta and, when it lies on the edit start row, its column
by the column delta; in particular for a single-line insertion of S at
(r,c) every element boundary at row r with column strictly greater than
c gains len(S) columns and nothing else changes.  For a deletion, a
start boundary at or after the edit end and an end boundary at or after
the edit START shift by the reversed delta (anchored at the edit end
row).  Text-run boundaries never change. -/
theorem c1_position_shift (dom : SNode) (delta : Delta)
    (hw : wfB dom = true)
    (hd : comparePoints delta.startP delta.endP ≤ 0) :
    updatePositions dom delta =
      mapBounds (deltaSign delta) delta.startP delta.endP
        (deltaSign delta * (delta.endP.row - delta.startP.row))
        (deltaSign delta * (delta.endP.column - delta.startP.column)) dom :=
  updWalk_eq_mapBounds hd dom hw

/-- Concrete tree for the C1 witness: nested elements and a text run. -/
def c1wTree : SNode :=
  .elem "html" 1 ⟨0, 0⟩ ⟨2, 7⟩ []
    [.elem "p" 2 ⟨0, 6⟩ ⟨0, 30⟩ [("class", "x")]
      [.text 0 ⟨0, 9⟩ ⟨0, 14⟩ "hello", .elem "b" 3 ⟨0, 14⟩ ⟨0, 25⟩ [] []],
     .elem "div" 4 ⟨1, 0⟩ ⟨1, 11⟩ [] []]

/-- Concrete delta for the C1 witness: single-line insertion of the
two-character string ok at row 0, column 10. -/
def c1wDelta : Delta := ⟨⟨0, 10⟩, ⟨0, 12⟩, "insertText", some "ok", none⟩

/-- Witness for claim C1: the hypotheses hold on a concrete tree and
single-line insertion, and the characterization applies. -/
theorem c1_position_shift_witness :
    wfB c1wTree = true ∧
    comparePoints c1wDelta.startP c1wDelta.endP ≤ 0 ∧
    updatePositions c1wTree c1wDelta =
      mapBounds (deltaSign c1wDelta) c1wDelta.startP c1wDelta.endP
        (deltaSign c1wDelta * (c1wDelta.endP.row - c1wDelta.startP.row))
        (deltaSign c1wDelta * (c1wDelta.endP.column - c1wDelta.startP.column))
        c1wTree :=
  ⟨by decide, by decide, c1_position_shift c1wTree c1wDelta (by decide) (by decide)⟩

mutual

/-- findNode(node, pos, preferParent) from the source: scan the node's
children (text runs, which have no children array, are skipped), descend
into a child whose span strictly contains pos, stop at the first child
whose end is past pos, and optionally prefer the parent when pos sits
exactly on a child's end boundary. -/
def findNode (pos : Pos) (preferParent : Bool) : SNode → SNode
  | .text id sp ep s => .text id sp ep s
  | .elem tag id sp ep attrs cs => findLoop pos preferParent (.elem tag id sp ep attrs cs) cs

/-- The for loop inside findNode, over the remaining children.  A text
run child (no children array) is skipped; on a text-run input findNode
runs the loop over the empty list and returns the node unchanged. -/
def findLoop (pos : Pos) (preferParent : Bool) (node : SNode) : List SNode → SNode
  | [] => node
  | .text a b c d :: rest => findLoop pos preferParent node rest
  | .elem tag2 id2 csp cep attrs2 ccs :: rest =>
      if comparePoints pos cep < 0 then
        if comparePoints pos csp > 0 then
          findNode pos preferParent (.elem tag2 id2 csp cep attrs2 ccs)
        else node
      else if preferParent = true ∧ comparePoints pos cep = 0 then node
      else findLoop pos preferParent node rest

end

/-- The edited session, reduced to the state the engine reads: the full
document text and the cached tree snapshot (session.dom). -/
structure Session where
  value : String
  dom : Option SNode

/-- _getNodeAtDocumentPos from the source: findNode on the cached tree
(null propagates to null). -/
def _getNodeAtDocumentPos (session : Session) (pos : Pos) (preferParent : Bool) :
    Option SNode :=
  session.dom.map (findNode pos preferParent)

/-- _getTagIDAtDocumentPos from the source: the tagID of the node found
at pos, or -1 when there is none. -/
def _getTagIDAtDocumentPos (session : Session) (pos : Pos) : Int :=
  match _getNodeAtDocumentPos session pos false with
  | some m => m.nodeTagID
  | none => -1

theorem findLoop_self {pos : Pos} {pp : Bool} {node : SNode} {l : List SNode}
    (h : ∀ c ∈ l, c.isElem = true →
      ¬(comparePoints pos c.ePos < 0 ∧ comparePoints pos c.sPos > 0)) :
    findLoop pos pp node l = node := by
  induction l with
  | nil => simp [findLoop]
  | cons ch rest ih =>
      have hrest : findLoop pos pp node rest = node :=
        ih fun c hc => h c (by simp [hc])
      cases ch with
      | text a b c d => simpa [findLoop] using hrest
      | elem tag2 id2 csp cep attrs2 ccs =>
          have hch := h (.elem tag2 id2 csp cep attrs2 ccs) (by simp) rfl
          simp only [SNode.ePos, SNode.sPos] at hch
          simp only [findLoop]
          by_cases h1 : comparePoints pos cep < 0
          · rw [if_pos h1, if_neg fun h2 => hch ⟨h1, h2⟩]
          · rw [if_neg h1]
            split
            · rfl
            · exact hrest

theorem findLoop_isElem {pos : Pos} {pp : Bool} {node : SNode} {l : List SNode}
    (h : ∀ c ∈ l, c.isElem = true → (findNode pos pp c).isElem = true)
    (hn : node.isElem = true) :
    (findLoop pos pp node l).isElem = true := by
  induction l with
  | nil => simpa [findLoop] using hn
  | cons ch rest ih =>
      have hrest := ih fun c hc => h c (by simp [hc])
      cases ch with
      | text a b c d => simpa [findLoop] using hrest
      | elem tag2 id2 csp cep attrs2 ccs =>
          simp only [findLoop]
          split
          · split
            · exact h _ (by simp) rfl
            · exact hn
          · split
            · exact hn
            · exact hrest

theorem findNode_isElem (pos : Pos) (pp : Bool) :
    ∀ t : SNode, t.isElem = true → (findNode pos pp t).isElem = true := by
  intro t
  induction t using SNode.inductionOn with
  | ht id sp ep s => intro h; simp [SNode.isElem] at h
  | he tag id sp ep attrs cs ih =>
      intro _
      simp only [findNode]
      exact findLoop_isElem ih rfl

/-- Claim C10: position lookup behavior.  (1) With no cached tree the
tagID lookup returns -1.  (2) findNode only descends into children that
themselves have a children array, so starting from an element it always
returns an element, never a text run.  (3) A position not strictly
inside any child's span resolves to the current node itself. -/
theorem c10_find_node_behavior :
    (∀ (value : String) (pos : Pos), _getTagIDAtDocumentPos ⟨value, none⟩ pos = -1) ∧
    (∀ (pos : Pos) (pp : Bool) (t : SNode),
      t.isElem = true → (findNode pos pp t).isElem = true) ∧
    (∀ (pos : Pos) (pp : Bool) (t : SNode),
      (∀ c ∈ t.childList, c.isElem = true →
        ¬(comparePoints pos c.ePos < 0 ∧ comparePoints pos c.sPos > 0)) →
      findNode pos pp t = t) := by
  refine ⟨fun _ _ => rfl, findNode_isElem, fun pos pp t h => ?_⟩
  cases t with
  | text id sp ep s => simp [findNode, findLoop]
  | elem tag id sp ep attrs cs =>
      simp only [findNode]
      exact findLoop_self (by simpa [SNode.childList] using h)

/-- Concrete tree for the C10 witness. -/
def c10wTree : SNode :=
  .elem "div" 1 ⟨0, 0⟩ ⟨0, 10⟩ []
    [.text 0 ⟨0, 1⟩ ⟨0, 2⟩ "a", .elem "p" 2 ⟨0, 2⟩ ⟨0, 4⟩ [] []]

/-- Witness for claim C10 at concrete inputs: an empty session resolves
to -1, and the position (0,6), strictly inside no child of the concrete
tree, resolves to an element, namely the tree itself. -/
theorem c10_find_node_behavior_witness :
    _getTagIDAtDocumentPos ⟨"", none⟩ ⟨0, 0⟩ = -1 ∧
    (findNode ⟨0, 6⟩ false c10wTree).isElem = true ∧
    findNode ⟨0, 6⟩ false c10wTree = c10wTree :=
  ⟨c10_find_node_behavior.1 "" ⟨0, 0⟩,
   c10_find_node_behavior.2.1 ⟨0, 6⟩ false c10wTree (by decide),
   c10_find_node_behavior.2.2 ⟨0, 6⟩ false c10wTree (by decide)⟩

/-- The character class of the isDangerousEdit regex: angle brackets,
slash, equals, double quote, single quote (codes 34 and 39). -/
def dangerousChars : List Char :=
  ['<', '>', '/', '=', Char.ofNat 34, Char.ofNat 39]

/-- isDangerousEdit(text) from the source: the regex tests whether any
character of the text belongs to the class; the ampersand is absent from
the class (entities only affect text content). -/
def isDangerousEdit (text : String) : Bool :=
  text.data.any fun c =>
    c == '<' || c == '>' || c == '/' || c == '=' ||
      c == Char.ofNat 34 || c == Char.ofNat 39

/-- The text of a delta as computed at the top of the DOMUpdater
constructor: delta.text when it is a string, else the joined
delta.lines. -/
def deltaText (d : Delta) : Option String :=
  match d.dtext, d.dlines with
  | some s, _ => some s
  | none, some l => some (String.intercalate "\n" l)
  | none, none => none

/-- The fields of a freshly constructed DOMUpdater that the update logic
reads: the incremental flag, the changed tag id (0 models the JS
undefined initial value, which is falsy exactly like a zero id), the
text that will be parsed, and this.previousDOM after the in-place
position shifts. -/
structure UpdaterState where
  isIncremental : Bool
  changedTagID : Int
  text : String
  dom : Option SNode

/-- Split a character list at newline characters (document rows). -/
def splitLines : List Char → List (List Char)
  | [] => [[]]
  | c :: rest =>
      match splitLines rest with
      | [] => [[]]
      | l :: ls => if c = '\n' then [] :: l :: ls else (c :: l) :: ls

/-- session.getTextRange: the text between two row/column positions
(model of the ace session interface consumed by the constructor). -/
def getTextRange (value : String) (sp ep : Pos) : String :=
  let lines := splitLines value.data
  if sp.row = ep.row then
    String.mk (((lines.getD sp.row.toNat []).drop sp.column.toNat).take
      (ep.column - sp.column).toNat)
  else
    let first := (lines.getD sp.row.toNat []).drop sp.column.toNat
    let mid := (lines.drop (sp.row.toNat + 1)).take (ep.row.toNat - sp.row.toNat - 1)
    let last := (lines.getD ep.row.toNat []).take ep.column.toNat
    String.mk (List.intercalate ['\n'] ([first] ++ mid ++ [last]))

/-- The DOMUpdater constructor, for the getUnappliedEditList flow where
this.previousDOM is the same object as session.dom (so the in-place
updatePositions call is visible to the _getNodeAtDocumentPos lookup
below it).  If the edit text is nonempty (JS truthiness) and not
dangerous, the node enclosing the edit start is looked up with
preferParent set; when found, the updater becomes incremental on that
node's tag id and text span.  A falsy changedTagID (never set, or a zero
tag id) sends the updater down the full path: the parsed text is the
whole document. -/
def mkDOMUpdater (session : Session) (delta : Option Delta) : UpdaterState :=
  let textOpt : Option String := delta.bind deltaText
  let dom1 : Option SNode :=
    match delta, session.dom with
    | some d, some prev => some (updatePositions prev d)
    | _, _ => session.dom
  let st0 : UpdaterState :=
    match textOpt, delta with
    | some t, some d =>
        if t ≠ "" ∧ isDangerousEdit t = false then
          match dom1 with
          | some root =>
              let startNode := findNode d.startP true root
              { isIncremental := true, changedTagID := startNode.nodeTagID,
                text := getTextRange session.value startNode.sPos startNode.ePos,
                dom := dom1 }
          | none => { isIncremental := false, changedTagID := 0, text := t, dom := dom1 }
        else { isIncremental := false, changedTagID := 0, text := t, dom := dom1 }
    | _, _ => { isIncremental := false, changedTagID := 0, text := "", dom := dom1 }
  if st0.changedTagID = 0 then
    { st0 with text := session.value }
  else st0

/-- Claim C2: a text is classified dangerous exactly when it contains
one of the characters angle-open, angle-close, slash, equals, double
quote, single quote; a dangerous edit text always forces the full
reparse classification (the incremental path is not taken and the whole
document text is parsed); the entity text amp-amp-semicolon and the bare
ampersand are never dangerous. -/
theorem c2_dangerous_edit :
    (∀ text : String, isDangerousEdit text = true ↔
      ∃ c ∈ text.data, c ∈ dangerousChars) ∧
    (∀ (session : Session) (d : Delta) (t : String),
      deltaText d = some t → isDangerousEdit t = true →
      (mkDOMUpdater session (some d)).isIncremental = false ∧
      (mkDOMUpdater session (some d)).changedTagID = 0 ∧
      (mkDOMUpdater session (some d)).text = session.value) ∧
    isDangerousEdit "&amp;" = false ∧ isDangerousEdit "&" = false := by
  refine ⟨?_, ?_, by decide, by decide⟩
  · intro text
    simp [isDangerousEdit, List.any_eq_true, dangerousChars, or_assoc]
  · intro session d t hdt hdang
    have hcond : ¬(¬t = "" ∧ isDangerousEdit t = false) := by
      intro h
      rw [hdang] at h
      simp at h
    simp only [mkDOMUpdater, Option.bind, hdt]
    rw [if_neg hcond]
    simp

/-- Concrete session for the C2 witness. -/
def c2wSession : Session :=
  ⟨"<p>a</p>", some (.elem "p" 1 ⟨0, 0⟩ ⟨0, 8⟩ [] [.text 0 ⟨0, 3⟩ ⟨0, 4⟩ "a"])⟩

/-- Concrete delta for the C2 witness: insertion of a bare angle
bracket, a dangerous character. -/
def c2wDelta : Delta := ⟨⟨0, 3⟩, ⟨0, 4⟩, "insertText", some "<", none⟩

/-- Witness for claim C2: the characterization at a concrete text, and
the forced full-reparse classification on a concrete dangerous edit. -/
theorem c2_dangerous_edit_witness :
    isDangerousEdit "x<y" = true ∧
    ((mkDOMUpdater c2wSession (some c2wDelta)).isIncremental = false ∧
      (mkDOMUpdater c2wSession (some c2wDelta)).changedTagID = 0 ∧
      (mkDOMUpdater c2wSession (some c2wDelta)).text = c2wSession.value) :=
  ⟨(c2_dangerous_edit.1 "x<y").mpr ⟨'<', by decide, by decide⟩,
   c2_dangerous_edit.2.1 c2wSession c2wDelta "<" rfl (by decide)⟩

/-- HTMLSimpleDOM._offsetPos as used here: the position shifted right by
an offset within its row (getID probes one character past the tag start,
inside the tag name). -/
def _offsetPos (p : Pos) (offset : Int) : Pos := ⟨p.row, p.column + offset⟩

/-- _hasAncestorWithID from the source: walk the parent chain (nearest
ancestor first) until a node with the id is found. -/
def _hasAncestorWithID (ancestors : List SNode) (id : Int) : Bool :=
  match ancestors with
  | [] => false
  | a :: rest => if a.nodeTagID ≠ id then _hasAncestorWithID rest id else true

/-- Tag name of a node: text runs have none (the JS field is undefined),
so a text run recorded under a reused id never compares equal to an
element's tag. -/
def SNode.tagName : SNode → Option String
  | .text _ _ _ _ => none
  | .elem tag _ _ _ _ _ => some tag

/-- DOMUpdater.prototype.getID from the source.  The previous tree's
nodeMap is passed as a lookup function, the new tag is given by its
start position, tag name and parent chain, and freshID is the value
this.getNewID() would produce. -/
def getID (session : Session) (prevNodeMap : Int → Option SNode)
    (newTagStartPos : Pos) (newTagName : String) (ancestors : List SNode)
    (freshID : Int) : Int :=
  let currentTagID := _getTagIDAtDocumentPos session (_offsetPos newTagStartPos 1)
  if currentTagID = -1 ∨ _hasAncestorWithID ancestors currentTagID = true then
    freshID
  else
    match prevNodeMap currentTagID with
    | none => freshID
    | some oldNode =>
        if SNode.tagName oldNode ≠ some newTagName then freshID else currentTagID

/-- Claim C3: the identifier policy of the incremental updater.  A fresh
id is assigned when the position lookup finds nothing (-1), when the
found id belongs to an ancestor of the new node, when the previous tree
has no node under the found id, or when that node's tag name differs
from the new element's; in every remaining case the found id is reused
unchanged. -/
theorem c3_get_id_policy (session : Session) (pm : Int → Option SNode)
    (p : Pos) (tag : String) (anc : List SNode) (fresh : Int) (L : Int)
    (hL : _getTagIDAtDocumentPos session (_offsetPos p 1) = L) :
    (L = -1 → getID session pm p tag anc fresh = fresh) ∧
    (_hasAncestorWithID anc L = true → getID session pm p tag anc fresh = fresh) ∧
    (pm L = none → getID session pm p tag anc fresh = fresh) ∧
    (∀ old, pm L = some old → SNode.tagName old ≠ some tag →
      getID session pm p tag anc fresh = fresh) ∧
    (∀ old, L ≠ -1 → _hasAncestorWithID anc L = false → pm L = some old →
      SNode.tagName old = some tag → getID session pm p tag anc fresh = L) := by
  simp only [getID, hL]
  refine ⟨?_, ?_, ?_, ?_, ?_⟩
  · intro h1
    rw [if_pos (Or.inl h1)]
  · intro h2
    rw [if_pos (Or.inr h2)]
  · intro h3
    by_cases h : L = -1 ∨ _hasAncestorWithID anc L = true
    · rw [if_pos h]
    · rw [if_neg h, h3]
  · intro old h4 h5
    by_cases h : L = -1 ∨ _hasAncestorWithID anc L = true
    · rw [if_pos h]
    · rw [if_neg h, h4]
      simp [h5]
  · intro old h1 h2 h3 h4
    rw [if_neg (by simp [h1, h2]), h3]
    simp [h4]

/-- Concrete session for the C3 witness: a div containing a p with
tag id 2. -/
def c3wSession : Session :=
  ⟨"<div><p>x</p></div>",
    some (.elem "div" 1 ⟨0, 0⟩ ⟨0, 19⟩ []
      [.elem "p" 2 ⟨0, 5⟩ ⟨0, 13⟩ [] []])⟩

/-- Concrete previous nodeMap for the C3 witness. -/
def c3wMap : Int → Option SNode :=
  fun i => if i = 2 then some (.elem "p" 2 ⟨0, 5⟩ ⟨0, 13⟩ [] []) else none

/-- Witness for claim C3: at a concrete reparsed p tag whose span is
still marked with id 2 and whose tag name is unchanged, getID reuses
id 2 rather than minting the fresh id 9. -/
theorem c3_get_id_policy_witness :
    getID c3wSession c3wMap ⟨0, 5⟩ "p" [.elem "div" 1 ⟨0, 0⟩ ⟨0, 19⟩ [] []] 9 = 2 :=
  (c3_get_id_policy c3wSession c3wMap ⟨0, 5⟩ "p"
      [.elem "div" 1 ⟨0, 0⟩ ⟨0, 19⟩ [] []] 9 2 rfl).2.2.2.2
    (.elem "p" 2 ⟨0, 5⟩ ⟨0, 13⟩ [] []) (by decide) (by decide) rfl rfl

mutual

/-- Lookup of previousDOM.nodeMap[id] expressed against the tree itself:
the first node in pre-order carrying the tag id.  Under the nodeMap
invariant (ids unique, map exactly the reachable nodes) this is the node
the JS map returns. -/
def subtreeWithTagID (id : Int) : SNode → Option SNode
  | .text tid sp ep s => if tid = id then some (.text tid sp ep s) else none
  | .elem tag tid sp ep attrs cs =>
      if tid = id then some (.elem tag tid sp ep attrs cs)
      else subtreeInList id cs

/-- First node with the tag id in a list of trees, in pre-order. -/
def subtreeInList (id : Int) : List SNode → Option SNode
  | [] => none
  | c :: rest =>
      match subtreeWithTagID id c with
      | some r => some r
      | none => subtreeInList id rest

end

mutual

/-- The structural swap parent.children[childIndex] = newSubtree,
expressed functionally: replace the first pre-order node strictly below
the given root that carries the tag id.  Because the located node is
found in its parent's children list, the childIndex lookup of the source
cannot fail here; the source's should-never-happen indexOf(-1) branch
corresponds to no constructible input. -/
def replaceSubtree (id : Int) (newSub : SNode) : SNode → Option SNode
  | .text _ _ _ _ => none
  | .elem tag tid sp ep attrs cs =>
      match replaceInList id newSub cs with
      | some cs2 => some (.elem tag tid sp ep attrs cs2)
      | none => none

/-- Replace the first tree containing (or being) the node with the tag
id in a list of trees. -/
def replaceInList (id : Int) (newSub : SNode) : List SNode → Option (List SNode)
  | [] => none
  | c :: rest =>
      if c.nodeTagID = id then some (newSub :: rest)
      else
        match replaceSubtree id newSub c with
        | some c2 => some (c2 :: rest)
        | none =>
            match replaceInList id newSub rest with
            | some rest2 => some (c :: rest2)
            | none => none

end

/-- The result record of DOMUpdater.prototype.update: the full new DOM,
the old subtree handed to the differ (this.previousDOM itself in the
default result, so possibly absent), and the new subtree. -/
structure UpdateResult where
  newDOM : SNode
  oldSubtree : Option SNode
  newSubtree : SNode

/-- Outcome of update(): null on parse failure, a result plus the value
of session.dom after the call, or a thrown TypeError (crash) when
changedTagID has no node in the previous tree -- which the constructor
flow never produces, since changedTagID is read off a node of that
tree. -/
inductive UpdateOutcome where
  | failed
  | ok (result : UpdateResult) (sessionDom : Option SNode)
  | crash

/-- DOMUpdater.prototype.update from the source, over the constructor
state.  build models the inherited HTMLSimpleDOM.Builder.build call
(external to this file; the spec: a parse returns a tree, or nothing on
malformed markup).  On parse failure the function returns failed and
touches nothing.  With a truthy changedTagID the old subtree is looked
up; a rootless old subtree (it IS the document root) keeps the default
full-update result; otherwise the new subtree is swapped in place of the
old one.  With a falsy changedTagID (full path) session.dom is assigned
the parsed tree. -/
def updateRun (build : String → Option SNode) (st : UpdaterState) : UpdateOutcome :=
  match build st.text with
  | none => .failed
  | some newSubtree =>
      if st.changedTagID ≠ 0 then
        match st.dom with
        | none => .crash
        | some root =>
            match subtreeWithTagID st.changedTagID root with
            | none => .crash
            | some oldSubtree =>
                if root.nodeTagID = st.changedTagID then
                  .ok ⟨newSubtree, st.dom, newSubtree⟩ st.dom
                else
                  match replaceSubtree st.changedTagID newSubtree root with
                  | some newDOM => .ok ⟨newDOM, some oldSubtree, newSubtree⟩ st.dom
                  | none => .crash
      else .ok ⟨newSubtree, st.dom, newSubtree⟩ (some newSubtree)

/-- Claim C8: when the node enclosing an incremental update is the
document root (no parent), update degrades to the default full-update
result: the old side of the diff is the whole previous tree, the new
side is the whole newly parsed tree, and no subtree splice is performed
(session.dom is left pointing at the previous tree). -/
theorem c8_root_fallback (build : String → Option SNode) (st : UpdaterState)
    (root nt : SNode)
    (hdom : st.dom = some root)
    (hid : st.changedTagID = root.nodeTagID)
    (hnz : root.nodeTagID ≠ 0)
    (hb : build st.text = some nt) :
    updateRun build st = .ok ⟨nt, some root, nt⟩ (some root) := by
  simp only [updateRun, hb, hdom]
  rw [if_pos (by rw [hid]; exact hnz)]
  have hsub : subtreeWithTagID st.changedTagID root = some root := by
    cases root with
    | text tid sp ep s => simp only [subtreeWithTagID]; rw [if_pos]; exact hid.symm
    | elem tag tid sp ep attrs cs => simp only [subtreeWithTagID]; rw [if_pos]; exact hid.symm
  rw [hsub]
  simp [hid]

/-- Concrete previous tree for the C8 witness: the enclosing node is the
root itself. -/
def c8wRoot : SNode := .elem "html" 1 ⟨0, 0⟩ ⟨0, 30⟩ [] [.elem "p" 2 ⟨0, 6⟩ ⟨0, 20⟩ [] []]

/-- Concrete parse result for the C8 witness. -/
def c8wNew : SNode := .elem "html" 1 ⟨0, 0⟩ ⟨0, 31⟩ [] []

/-- Witness for claim C8: an incremental request whose changed node is
the root id 1 yields the default full result, old side the whole
previous tree, no splice. -/
theorem c8_root_fallback_witness :
    updateRun (fun _ => some c8wNew) ⟨true, 1, "<p>hi</p>", some c8wRoot⟩ =
      .ok ⟨c8wNew, some c8wRoot, c8wNew⟩ (some c8wRoot) :=
  c8_root_fallback (fun _ => some c8wNew) ⟨true, 1, "<p>hi</p>", some c8wRoot⟩
    c8wRoot c8wNew rfl rfl (by decide) rfl

theorem mkDOMUpdater_dom (session : Session) (delta : Option Delta) :
    (mkDOMUpdater session delta).dom =
      match delta, session.dom with
      | some d, some prev => some (updatePositions prev d)
      | _, _ => session.dom := by
  simp only [mkDOMUpdater]
  repeat' split
  all_goals rfl

/-- The record _updateDOM returns: the builder's error list, the new
tree when one was adopted, and the edit script when one was produced. -/
structure EditListResult (E : Type) where
  errors : List String
  dom : Option SNode
  edits : Option (List E)

/-- _updateDOM from the source, in the getUnappliedEditList flow
(previousDOM is session.dom).  build and errs model the inherited
builder (external module): the parsed tree, and the updater's error list
after building the given text; domdiff models HTMLDOMDiff.domdiff
(external module).  When update() returns null only the errors are
returned; otherwise the subtrees are diffed.  The second component is
session.dom after the call (positions were already shifted in place by
the constructor).  none models a thrown exception. -/
def _updateDOM {E : Type} (build : String → Option SNode) (errs : String → List String)
    (domdiff : Option SNode → SNode → List E) (session : Session)
    (delta : Option Delta) : Option (EditListResult E × Option SNode) :=
  let st := mkDOMUpdater session delta
  match updateRun build st with
  | .failed => some (⟨errs st.text, none, none⟩, st.dom)
  | .ok r newDom =>
      some (⟨errs st.text, some r.newDOM, some (domdiff r.oldSubtree r.newSubtree)⟩, newDom)
  | .crash => none

/-- getUnappliedEditList from the source: run _updateDOM on the cached
tree, then adopt result.dom as the new session.dom when present.  (The
source also tacks the error list onto the old dom object as a metadata
field; the tree structure itself is unchanged by that.) -/
def getUnappliedEditList {E : Type} (build : String → Option SNode)
    (errs : String → List String) (domdiff : Option SNode → SNode → List E)
    (session : Session) (delta : Option Delta) :
    Option (EditListResult E × Session) :=
  match _updateDOM build errs domdiff session delta with
  | none => none
  | some (result, newDom) =>
      match result.dom with
      | some d2 => some (result, { session with dom := some d2 })
      | none => some (result, { session with dom := newDom })

/-- Claim C5 (amended): while the update's OWN parse attempt fails --
the full-document parse on the full path, or the narrowed-span parse on
the incremental path -- the update produces no edit script, only the
(non-empty) error list; the cached snapshot session.dom is not replaced,
so the last tree is retained; and the position shifts for the edit were
still applied to that retained tree before parsing was attempted.  (A
document that is invalid as a whole does not imply this state: when the
narrowed incremental span parses, the updater does emit an edit script
and adopts the parsed tree; see the counterexample.) -/
theorem c5_parse_error_state {E : Type} (build : String → Option SNode)
    (errs : String → List String) (domdiff : Option SNode → SNode → List E)
    (session : Session) (d : Delta) (oldTree : SNode)
    (hdom : session.dom = some oldTree)
    (hfail : build (mkDOMUpdater session (some d)).text = none)
    (hcontract : ∀ t, build t = none → errs t ≠ []) :
    getUnappliedEditList build errs domdiff session (some d) =
      some (⟨errs (mkDOMUpdater session (some d)).text, none, none⟩,
        { session with dom := some (updatePositions oldTree d) }) ∧
    errs (mkDOMUpdater session (some d)).text ≠ [] := by
  have hstdom : (mkDOMUpdater session (some d)).dom =
      some (updatePositions oldTree d) := by
    rw [mkDOMUpdater_dom, hdom]
  constructor
  · simp only [getUnappliedEditList, _updateDOM, updateRun, hfail, hstdom]
  · exact hcontract _ hfail

/-- Concrete tree for the C5 witness. -/
def c5wTree : SNode := .elem "p" 1 ⟨0, 0⟩ ⟨0, 9⟩ [] [.text 0 ⟨0, 3⟩ ⟨0, 5⟩ "hi"]

/-- Concrete session for the C5 witness (document currently invalid). -/
def c5wSession : Session := ⟨"<p>h<i</p>", some c5wTree⟩

/-- Concrete delta for the C5 witness: insertion of a single character
at row 0 column 4. -/
def c5wDelta : Delta := ⟨⟨0, 4⟩, ⟨0, 5⟩, "insertText", some "i", none⟩

/-- Witness for claim C5 with an always-failing builder: the update
returns errors only and the session keeps the position-shifted old
tree. -/
theorem c5_parse_error_state_witness :
    getUnappliedEditList (fun _ => none) (fun _ => ["parse error"])
        (fun _ _ => ([] : List Unit)) c5wSession (some c5wDelta) =
      some (⟨["parse error"], none, none⟩,
        { c5wSession with dom := some (updatePositions c5wTree c5wDelta) }) ∧
    (["parse error"] : List String) ≠ [] := by
  have h := c5_parse_error_state (fun _ => none) (fun _ => ["parse error"])
    (fun _ _ => ([] : List Unit)) c5wSession c5wDelta c5wTree rfl rfl
    (fun t _ => by simp)
  exact h

/-- C5 counterexample previous tree: a div holding the text ok, cached
from before the stray trailing angle bracket broke the document. -/
def c5cexTree : SNode := .elem "div" 1 ⟨0, 0⟩ ⟨0, 13⟩ [] [.text 0 ⟨0, 5⟩ ⟨0, 7⟩ "ok"]

/-- C5 counterexample session: the document text after the edit; the
trailing bare angle bracket makes the document as a whole unparseable. -/
def c5cexSession : Session := ⟨"<div>oxk</div><", some c5cexTree⟩

/-- C5 counterexample delta: the non-dangerous insertion of x at row 0
column 6, turning ok into oxk. -/
def c5cexDelta : Delta := ⟨⟨0, 6⟩, ⟨0, 7⟩, "insertText", some "x", none⟩

/-- C5 counterexample parse result for the narrowed span. -/
def c5cexNarrowTree : SNode := .elem "div" 1 ⟨0, 0⟩ ⟨0, 14⟩ [] []

/-- C5 counterexample builder: the narrowed incremental span parses, the
whole document (with its dangling angle bracket) does not. -/
def c5cexBuild : String → Option SNode :=
  fun s => if s = "<div>oxk</div>" then some c5cexNarrowTree else none

/-- C5 counterexample builder error list, empty exactly when the parse
succeeds. -/
def c5cexErrs : String → List String :=
  fun s => if s = "<div>oxk</div>" then [] else ["parse error"]

/-- Counterexample to claim C5 as stated.  The document text cannot be
parsed (the builder fails on session.value), yet the non-dangerous edit
takes the incremental path, the narrowed span does parse, and the update
returns an edit script with an EMPTY error list and REPLACES session.dom
with the freshly parsed tree (one node) instead of retaining the
position-shifted cached tree (two nodes) -- contradicting every part of
the claim's universal statement. -/
theorem c5_counterexample :
    c5cexBuild c5cexSession.value = none ∧
    isDangerousEdit "x" = false ∧
    (mkDOMUpdater c5cexSession (some c5cexDelta)).isIncremental = true ∧
    getUnappliedEditList c5cexBuild c5cexErrs (fun _ _ => ([0] : List Nat))
        c5cexSession (some c5cexDelta) =
      some (⟨[], some c5cexNarrowTree, some [0]⟩,
        { c5cexSession with dom := some c5cexNarrowTree }) ∧
    nodeCount c5cexNarrowTree = 1 ∧
    nodeCount (updatePositions c5cexTree c5cexDelta) = 2 :=
  ⟨rfl, rfl, rfl, rfl, rfl, rfl⟩

/-- Claim C4 (amended): atomicity of update.  (1) If the (incremental or
full) parse fails, update returns the failure outcome -- it does NOT
degrade to a full reparse within the same call.  (2) Every successful
update hands back either the freshly parsed tree itself, or the old tree
with exactly the located old subtree swapped for the new subtree; no
other shape -- in particular no partially spliced hybrid -- is possible.
(3) On parse failure getUnappliedEditList returns the error list with no
edit script and no new tree, and session.dom keeps the old
(position-shifted) snapshot. -/
theorem c4_update_atomicity {E : Type} (build : String → Option SNode)
    (errs : String → List String) (domdiff : Option SNode → SNode → List E) :
    (∀ st : UpdaterState, build st.text = none → updateRun build st = .failed) ∧
    (∀ (st : UpdaterState) (r : UpdateResult) (nd : Option SNode),
      updateRun build st = .ok r nd →
      build st.text = some r.newSubtree ∧
      (r.newDOM = r.newSubtree ∨
        ∃ root old, st.dom = some root ∧
          subtreeWithTagID st.changedTagID root = some old ∧
          r.oldSubtree = some old ∧
          replaceSubtree st.changedTagID r.newSubtree root = some r.newDOM)) ∧
    (∀ (session : Session) (delta : Option Delta),
      build (mkDOMUpdater session delta).text = none →
      getUnappliedEditList build errs domdiff session delta =
        some (⟨errs (mkDOMUpdater session delta).text, none, none⟩,
          { session with dom := (mkDOMUpdater session delta).dom })) := by
  refine ⟨?_, ?_, ?_⟩
  · intro st hfail
    simp only [updateRun, hfail]
  · intro st r nd h
    cases hb : build st.text with
    | none =>
        simp only [updateRun, hb] at h
        exact UpdateOutcome.noConfusion h
    | some nt =>
        simp only [updateRun, hb] at h
        by_cases hc : st.changedTagID ≠ 0
        · rw [if_pos hc] at h
          cases hdom : st.dom with
          | none =>
              simp only [hdom] at h
              exact UpdateOutcome.noConfusion h
          | some root =>
              simp only [hdom] at h
              cases hsub : subtreeWithTagID st.changedTagID root with
              | none =>
                  simp only [hsub] at h
                  exact UpdateOutcome.noConfusion h
              | some old =>
                  simp only [hsub] at h
                  by_cases hr : root.nodeTagID = st.changedTagID
                  · rw [if_pos hr] at h
                    injection h with h1 h2
                    subst h1
                    exact ⟨rfl, Or.inl rfl⟩
                  · rw [if_neg hr] at h
                    cases hrep : replaceSubtree st.changedTagID nt root with
                    | none =>
                        simp only [hrep] at h
                        exact UpdateOutcome.noConfusion h
                    | some newDOM =>
                        simp only [hrep] at h
                        injection h with h1 h2
                        subst h1
                        exact ⟨rfl, Or.inr ⟨root, old, rfl, hsub, rfl, hrep⟩⟩
        · rw [if_neg hc] at h
          injection h with h1 h2
          subst h1
          exact ⟨rfl, Or.inl rfl⟩
  · intro session delta hfail
    simp only [getUnappliedEditList, _updateDOM, updateRun, hfail]

/-- C4 counterexample tree: div with a p child whose span still holds
the text ab. -/
def c4cexTree : SNode :=
  .elem "div" 1 ⟨0, 0⟩ ⟨0, 20⟩ []
    [.elem "p" 2 ⟨0, 5⟩ ⟨0, 14⟩ [] [.text 0 ⟨0, 8⟩ ⟨0, 10⟩ "ab"]]

/-- C4 counterexample session: the document text after inserting x
between a and b. -/
def c4cexSession : Session := ⟨"<div><p>axb</p></div>", some c4cexTree⟩

/-- C4 counterexample delta: the non-dangerous single-character
insertion of x at row 0 column 9. -/
def c4cexDelta : Delta := ⟨⟨0, 9⟩, ⟨0, 10⟩, "insertText", some "x", none⟩

/-- C4 counterexample full-parse result. -/
def c4cexFullTree : SNode := .elem "div" 1 ⟨0, 0⟩ ⟨0, 21⟩ [] []

/-- C4 counterexample builder: parses the whole document successfully
but fails on the narrowed span (think of an imbalance the narrow parse
cannot resolve). -/
def c4cexBuild : String → Option SNode :=
  fun s => if s = "<div><p>axb</p></div>" then some c4cexFullTree else none

/-- Counterexample to claim C4 as stated: the edit is classified
incremental and narrows the parse to the p span; the narrow parse fails
while a full parse of the document would succeed; yet update returns the
failure outcome -- it does NOT degrade to the full path within this
update (no full reparse is attempted; the caller keeps the old tree and
only receives errors). -/
theorem c4_counterexample :
    (mkDOMUpdater c4cexSession (some c4cexDelta)).isIncremental = true ∧
    (mkDOMUpdater c4cexSession (some c4cexDelta)).text = "<p>axb</p>" ∧
    c4cexBuild c4cexSession.value = some c4cexFullTree ∧
    c4cexBuild "<p>axb</p>" = none ∧
    updateRun c4cexBuild (mkDOMUpdater c4cexSession (some c4cexDelta)) = .failed :=
  ⟨rfl, rfl, rfl, rfl, rfl⟩

/-- C4 witness previous tree for the successful splice case. -/
def c4wRoot : SNode := .elem "div" 1 ⟨0, 0⟩ ⟨0, 9⟩ [] [.elem "p" 2 ⟨0, 1⟩ ⟨0, 8⟩ [] []]

/-- C4 witness old subtree (the p child of the witness root). -/
def c4wOld : SNode := .elem "p" 2 ⟨0, 1⟩ ⟨0, 8⟩ [] []

/-- C4 witness reparsed subtree. -/
def c4wNewSub : SNode := .elem "p" 2 ⟨0, 1⟩ ⟨0, 9⟩ [] []

/-- C4 witness spliced full tree: the root with exactly the p child
swapped. -/
def c4wNewDOM : SNode := .elem "div" 1 ⟨0, 0⟩ ⟨0, 9⟩ [] [c4wNewSub]

/-- C4 witness updater state for the splice case. -/
def c4wState : UpdaterState := ⟨true, 2, "<p>z!</p>", some c4wRoot⟩

/-- Witness for claim C4 (amended), applying each part at concrete
inputs: a failing parse returns the failure outcome; a successful
incremental update is exactly the old tree with the located subtree
swapped; and on failure getUnappliedEditList reports errors only and
keeps the session tree. -/
theorem c4_update_atomicity_witness :
    updateRun (fun _ => none) ⟨false, 0, "bad", none⟩ = .failed ∧
    (fun _ => some c4wNewSub) c4wState.text = some c4wNewSub ∧
    getUnappliedEditList (fun _ => none) (fun _ => ["e"]) (fun _ _ => ([] : List Unit))
        ⟨"x", some c4wRoot⟩ none =
      some (⟨["e"], none, none⟩,
        { Session.mk "x" (some c4wRoot) with
            dom := (mkDOMUpdater ⟨"x", some c4wRoot⟩ none).dom }) :=
  ⟨(c4_update_atomicity (E := Unit) (fun _ => none) (fun _ => ["e"])
      (fun _ _ => [])).1 ⟨false, 0, "bad", none⟩ rfl,
   ((c4_update_atomicity (E := Unit) (fun _ => some c4wNewSub) (fun _ => ["e"])
      (fun _ _ => [])).2.1 c4wState ⟨c4wNewDOM, some c4wOld, c4wNewSub⟩
      (some c4wRoot) rfl).1,
   (c4_update_atomicity (E := Unit) (fun _ => none) (fun _ => ["e"])
      (fun _ _ => [])).2.2 ⟨"x", some c4wRoot⟩ none rfl⟩

mutual

/-- _buildNodeMap's walk from the source, as an entry list in walk
order: every node with a truthy tagID contributes an entry mapping its
id to the node, parents before children.  A JS object assignment
nodeMap\x7bid\x7d = node overwrites, so lookups read the LAST entry for
a key. -/
def nodeMapEntries : SNode → List (Int × SNode)
  | .text id sp ep s => if id ≠ 0 then [(id, .text id sp ep s)] else []
  | .elem tag id sp ep attrs cs =>
      (if id ≠ 0 then [(id, .elem tag id sp ep attrs cs)] else []) ++ nodeMapEntriesL cs

/-- Entries contributed by a list of trees, in order. -/
def nodeMapEntriesL : List SNode → List (Int × SNode)
  | [] => []
  | c :: rest => nodeMapEntries c ++ nodeMapEntriesL rest

end

mutual

/-- The tagIDs reachable from a node (truthy ids only), in walk order. -/
def treeIds : SNode → List Int
  | .text id _ _ _ => if id ≠ 0 then [id] else []
  | .elem _ id _ _ _ cs => (if id ≠ 0 then [id] else []) ++ treeIdsL cs

/-- The tagIDs reachable from a list of trees. -/
def treeIdsL : List SNode → List Int
  | [] => []
  | c :: rest => treeIds c ++ treeIdsL rest

end

/-- JS object lookup on an entry list: the last entry for the key wins
(later assignments overwrite earlier ones). -/
def jsLookup (m : List (Int × SNode)) (k : Int) : Option SNode :=
  (m.reverse.find? fun e => e.1 == k).map Prod.snd

/-- JS hasOwnProperty on an entry list. -/
def hasKey (m : List (Int × SNode)) (k : Int) : Bool :=
  m.any fun e => e.1 == k

/-- oop.mixin(dest, src): src's properties are written over dest's, so
in entry-list form the src entries come later. -/
def extendMap (dest src : List (Int × SNode)) : List (Int × SNode) :=
  dest ++ src

/-- _handleDeletions from the source: delete from nodeMap every key that
the old subtree map has and the new subtree map lacks. -/
def _handleDeletions (nodeMap oldSubtreeMap newSubtreeMap : List (Int × SNode)) :
    List (Int × SNode) :=
  nodeMap.filter fun e => !(hasKey oldSubtreeMap e.1 && !(hasKey newSubtreeMap e.1))

/-- The nodeMap maintenance performed by update() on the incremental
path, in source order: extend the previous tree's map with the new
subtree's map, then handle deletions against the old subtree's map. -/
def updatedNodeMap (prevMap oldSubMap newSubMap : List (Int × SNode)) :
    List (Int × SNode) :=
  _handleDeletions (extendMap prevMap newSubMap) oldSubMap newSubMap

theorem treeIds_eq_entries : ∀ t : SNode, treeIds t = (nodeMapEntries t).map Prod.fst := by
  intro t
  induction t using SNode.inductionOn with
  | ht id sp ep s => by_cases h : id = 0 <;> simp [treeIds, nodeMapEntries, h]
  | he tag id sp ep attrs cs ih =>
      have hL : treeIdsL cs = (nodeMapEntriesL cs).map Prod.fst := by
        induction cs with
        | nil => rfl
        | cons c rest ihL =>
            simp only [treeIdsL, nodeMapEntriesL, List.map_append]
            rw [ih c (by simp), ihL fun d hd => ih d (by simp [hd])]
      by_cases h : id = 0 <;> simp [treeIds, nodeMapEntries, h, hL]

theorem treeIdsL_eq_entries (cs : List SNode) :
    treeIdsL cs = (nodeMapEntriesL cs).map Prod.fst := by
  induction cs with
  | nil => rfl
  | cons c rest ih =>
      simp only [treeIdsL, nodeMapEntriesL, List.map_append, ih, treeIds_eq_entries]

theorem hasKey_iff (m : List (Int × SNode)) (k : Int) :
    hasKey m k = true ↔ k ∈ m.map Prod.fst := by
  simp [hasKey, List.any_eq_true]

theorem jsLookup_append (a b : List (Int × SNode)) (k : Int) :
    jsLookup (a ++ b) k =
      match jsLookup b k with
      | some v => some v
      | none => jsLookup a k := by
  simp only [jsLookup, List.reverse_append, List.find?_append]
  cases h : b.reverse.find? fun e => e.1 == k <;> simp [Option.or]

theorem jsLookup_eq_none_iff (m : List (Int × SNode)) (k : Int) :
    jsLookup m k = none ↔ ∀ e ∈ m, ¬(e.1 = k) := by
  simp [jsLookup, List.find?_eq_none]

theorem jsLookup_isSome_iff (m : List (Int × SNode)) (k : Int) :
    (jsLookup m k).isSome = true ↔ k ∈ m.map Prod.fst := by
  simp only [jsLookup]
  cases h : m.reverse.find? (fun e => e.1 == k) with
  | none =>
      rw [List.find?_eq_none] at h
      refine iff_of_false (by simp) ?_
      intro hk
      rcases List.mem_map.mp hk with ⟨e, he, hek⟩
      have h2 := h e (List.mem_reverse.mpr he)
      simp [hek] at h2
  | some e =>
      have hmem : e ∈ m.reverse := List.mem_of_find?_eq_some h
      have hk := List.find?_some h
      refine iff_of_true (by simp) ?_
      exact List.mem_map.mpr ⟨e, List.mem_reverse.mp hmem, by simpa using hk⟩

theorem subtree_found_self {id : Int} {t : SNode} (h : t.nodeTagID = id) :
    subtreeWithTagID id t = some t := by
  cases t with
  | text tid sp ep s =>
      simp only [SNode.nodeTagID] at h
      simp [subtreeWithTagID, h]
  | elem tag tid sp ep attrs cs =>
      simp only [SNode.nodeTagID] at h
      simp [subtreeWithTagID, h]

theorem found_none_replace_none_list (id : Int) (newSub : SNode) :
    ∀ cs : List SNode,
      (∀ c ∈ cs, subtreeWithTagID id c = none → replaceSubtree id newSub c = none) →
      subtreeInList id cs = none → replaceInList id newSub cs = none := by
  intro cs
  induction cs with
  | nil => intro _ _; simp [replaceInList]
  | cons c rest ihL =>
      intro hmem hfound
      simp only [subtreeInList] at hfound
      cases hfc : subtreeWithTagID id c with
      | some r =>
          simp only [hfc] at hfound
          exact Option.noConfusion hfound
      | none =>
          simp only [hfc] at hfound
          have hcid : ¬ c.nodeTagID = id := by
            intro h
            rw [subtree_found_self h] at hfc
            exact Option.noConfusion hfc
          have hrc := hmem c (by simp) hfc
          have hrr := ihL (fun d hd => hmem d (by simp [hd])) hfound
          simp [replaceInList, hcid, hrc, hrr]

theorem found_none_replace_none (id : Int) (newSub : SNode) :
    ∀ t : SNode, subtreeWithTagID id t = none →
      replaceSubtree id newSub t = none := by
  intro t
  induction t using SNode.inductionOn with
  | ht tid sp ep s => intro _; rfl
  | he tag tid sp ep attrs cs ih =>
      intro hfound
      simp only [subtreeWithTagID] at hfound
      by_cases htid : tid = id
      · rw [if_pos htid] at hfound
        exact Option.noConfusion hfound
      · rw [if_neg htid] at hfound
        have := found_none_replace_none_list id newSub cs ih hfound
        simp [replaceSubtree, this]

theorem replace_none_found_none_list (id : Int) (newSub : SNode) :
    ∀ cs : List SNode,
      (∀ c ∈ cs, c.nodeTagID ≠ id → replaceSubtree id newSub c = none →
        subtreeWithTagID id c = none) →
      replaceInList id newSub cs = none → subtreeInList id cs = none := by
  intro cs
  induction cs with
  | nil => intro _ _; simp [subtreeInList]
  | cons c rest ihL =>
      intro hmem hrep
      simp only [replaceInList] at hrep
      by_cases hcid : c.nodeTagID = id
      · rw [if_pos hcid] at hrep
        exact Option.noConfusion hrep
      · rw [if_neg hcid] at hrep
        cases hrc : replaceSubtree id newSub c with
        | some c2 =>
            simp only [hrc] at hrep
            exact Option.noConfusion hrep
        | none =>
            simp only [hrc] at hrep
            cases hrr : replaceInList id newSub rest with
            | some r2 =>
                simp only [hrr] at hrep
                exact Option.noConfusion hrep
            | none =>
                have hsc := hmem c (by simp) hcid hrc
                have hsr := ihL (fun d hd => hmem d (by simp [hd])) hrr
                simp [subtreeInList, hsc, hsr]

theorem replace_none_found_none (id : Int) (newSub : SNode) :
    ∀ t : SNode, t.nodeTagID ≠ id → replaceSubtree id newSub t = none →
      subtreeWithTagID id t = none := by
  intro t
  induction t using SNode.inductionOn with
  | ht tid sp ep s =>
      intro hne _
      simp only [SNode.nodeTagID] at hne
      simp [subtreeWithTagID, hne]
  | he tag tid sp ep attrs cs ih =>
      intro hne hrep
      simp only [SNode.nodeTagID] at hne
      simp only [replaceSubtree] at hrep
      cases hrl : replaceInList id newSub cs with
      | some cs2 =>
          simp only [hrl] at hrep
          exact Option.noConfusion hrep
      | none =>
          have := replace_none_found_none_list id newSub cs ih hrl
          simp [subtreeWithTagID, hne, this]

theorem replace_ids_list (id : Int) (newSub : SNode) :
    ∀ cs : List SNode,
      (∀ c ∈ cs, ∀ old t2, c.nodeTagID ≠ id → subtreeWithTagID id c = some old →
        replaceSubtree id newSub c = some t2 →
        ∃ A B : List Int, treeIds c = A ++ treeIds old ++ B ∧
          treeIds t2 = A ++ treeIds newSub ++ B) →
      ∀ old cs2, subtreeInList id cs = some old →
        replaceInList id newSub cs = some cs2 →
        ∃ A B : List Int, treeIdsL cs = A ++ treeIds old ++ B ∧
          treeIdsL cs2 = A ++ treeIds newSub ++ B := by
  intro cs
  induction cs with
  | nil =>
      intro _ old cs2 hfound
      simp [subtreeInList] at hfound
  | cons c rest ihL =>
      intro hmem old cs2 hfound hrep
      simp only [replaceInList] at hrep
      by_cases hcid : c.nodeTagID = id
      · rw [if_pos hcid] at hrep
        injection hrep with hcs2
        subst hcs2
        have hfc : subtreeWithTagID id c = some c := subtree_found_self hcid
        simp only [subtreeInList, hfc] at hfound
        injection hfound with hold
        subst hold
        exact ⟨[], treeIdsL rest, by simp [treeIdsL], by simp [treeIdsL]⟩
      · rw [if_neg hcid] at hrep
        cases hrc : replaceSubtree id newSub c with
        | some c2 =>
            simp only [hrc] at hrep
            injection hrep with hcs2
            subst hcs2
            cases hfc : subtreeWithTagID id c with
            | none =>
                rw [found_none_replace_none id newSub c hfc] at hrc
                exact Option.noConfusion hrc
            | some r =>
                simp only [subtreeInList, hfc] at hfound
                injection hfound with hold
                subst hold
                obtain ⟨A, B, e1, e2⟩ := hmem c (by simp) r c2 hcid hfc hrc
                refine ⟨A, B ++ treeIdsL rest, ?_, ?_⟩
                · simp [treeIdsL, e1]
                · simp [treeIdsL, e2]
        | none =>
            simp only [hrc] at hrep
            cases hrr : replaceInList id newSub rest with
            | none =>
                simp only [hrr] at hrep
                exact Option.noConfusion hrep
            | some rest2 =>
                simp only [hrr] at hrep
                injection hrep with hcs2
                subst hcs2
                have hfc : subtreeWithTagID id c = none :=
                  replace_none_found_none id newSub c hcid hrc
                simp only [subtreeInList, hfc] at hfound
                obtain ⟨A, B, e1, e2⟩ :=
                  ihL (fun d hd => hmem d (by simp [hd])) old rest2 hfound hrr
                refine ⟨treeIds c ++ A, B, ?_, ?_⟩
                · simp [treeIdsL, e1]
                · simp [treeIdsL, e2]

theorem replace_ids_tree (id : Int) (newSub : SNode) :
    ∀ t : SNode, ∀ old t2, t.nodeTagID ≠ id → subtreeWithTagID id t = some old →
      replaceSubtree id newSub t = some t2 →
      ∃ A B : List Int, treeIds t = A ++ treeIds old ++ B ∧
        treeIds t2 = A ++ treeIds newSub ++ B := by
  intro t
  induction t using SNode.inductionOn with
  | ht tid sp ep s =>
      intro old t2 hne hfound _
      simp only [SNode.nodeTagID] at hne
      simp [subtreeWithTagID, hne] at hfound
  | he tag tid sp ep attrs cs ih =>
      intro old t2 hne hfound hrep
      simp only [SNode.nodeTagID] at hne
      simp only [subtreeWithTagID] at hfound
      rw [if_neg hne] at hfound
      simp only [replaceSubtree] at hrep
      cases hrl : replaceInList id newSub cs with
      | none =>
          simp only [hrl] at hrep
          exact Option.noConfusion hrep
      | some cs2 =>
          simp only [hrl] at hrep
          injection hrep with ht2
          subst ht2
          obtain ⟨A, B, e1, e2⟩ := replace_ids_list id newSub cs ih old cs2 hfound hrl
          refine ⟨(if tid ≠ 0 then [tid] else []) ++ A, B, ?_, ?_⟩
          · simp [treeIds, e1]
          · simp [treeIds, e2]

theorem hasKey_of_mem {m : List (Int × SNode)} {e : Int × SNode} (he : e ∈ m) :
    hasKey m e.1 = true := by
  simp only [hasKey, List.any_eq_true]
  exact ⟨e, he, by simp⟩

/-- Claim C6: after a successful incremental splice the maintained
nodeMap (extend with the new subtree's entries, then handle deletions
against the old subtree's entries) is exactly the map of the spliced
tree: its keys are precisely the tagIDs reachable from the new root;
every id of the new subtree resolves to its new node (new entries
overwrite old ones); and every id of the old subtree absent from the new
subtree is removed. -/
theorem c6_nodemap_invariant (id : Int) (root oldSub newSub newRoot : SNode)
    (hroot : root.nodeTagID ≠ id)
    (hsub : subtreeWithTagID id root = some oldSub)
    (hrep : replaceSubtree id newSub root = some newRoot)
    (hnodup : (treeIds root).Nodup) :
    (∀ k, hasKey (updatedNodeMap (nodeMapEntries root) (nodeMapEntries oldSub)
        (nodeMapEntries newSub)) k = true ↔ k ∈ treeIds newRoot) ∧
    (∀ k, hasKey (nodeMapEntries newSub) k = true →
      jsLookup (updatedNodeMap (nodeMapEntries root) (nodeMapEntries oldSub)
        (nodeMapEntries newSub)) k = jsLookup (nodeMapEntries newSub) k) ∧
    (∀ k, hasKey (nodeMapEntries oldSub) k = true →
      hasKey (nodeMapEntries newSub) k = false →
      jsLookup (updatedNodeMap (nodeMapEntries root) (nodeMapEntries oldSub)
        (nodeMapEntries newSub)) k = none) := by
  obtain ⟨A, B, e1, e2⟩ := replace_ids_tree id newSub root oldSub newRoot hroot hsub hrep
  have hresult : updatedNodeMap (nodeMapEntries root) (nodeMapEntries oldSub)
      (nodeMapEntries newSub) =
      (nodeMapEntries root).filter
        (fun e => !(hasKey (nodeMapEntries oldSub) e.1 &&
          !(hasKey (nodeMapEntries newSub) e.1))) ++ nodeMapEntries newSub := by
    unfold updatedNodeMap _handleDeletions extendMap
    rw [List.filter_append]
    congr 1
    apply List.filter_eq_self.mpr
    intro e he
    rw [hasKey_of_mem he]
    simp
  have hkeysR : (nodeMapEntries root).map Prod.fst =
      A ++ treeIds oldSub ++ B := by rw [← treeIds_eq_entries]; exact e1
  have hkeysO : (nodeMapEntries oldSub).map Prod.fst = treeIds oldSub :=
    (treeIds_eq_entries oldSub).symm
  have hkeysN : (nodeMapEntries newSub).map Prod.fst = treeIds newSub :=
    (treeIds_eq_entries newSub).symm
  rw [e1] at hnodup
  have hsplit1 := List.nodup_append.mp hnodup
  have hsplit2 := List.nodup_append.mp hsplit1.1
  have hAO : ∀ k, k ∈ A → k ∉ treeIds oldSub := by
    intro k hkA hkO
    exact hsplit2.2.2 hkA hkO
  have hBO : ∀ k, k ∈ B → k ∉ treeIds oldSub := by
    intro k hkB hkO
    exact hsplit1.2.2 (List.mem_append.mpr (Or.inr hkO)) hkB
  have hasKeyO_iff : ∀ k, hasKey (nodeMapEntries oldSub) k = true ↔
      k ∈ treeIds oldSub := fun k => by rw [hasKey_iff, hkeysO]
  have hasKeyN_iff : ∀ k, hasKey (nodeMapEntries newSub) k = true ↔
      k ∈ treeIds newSub := fun k => by rw [hasKey_iff, hkeysN]
  have hkO_false : ∀ k, k ∉ treeIds oldSub →
      hasKey (nodeMapEntries oldSub) k = false := by
    intro k h
    cases hh : hasKey (nodeMapEntries oldSub) k
    · rfl
    · exact absurd ((hasKeyO_iff k).mp hh) h
  have hkN_false : ∀ k, k ∉ treeIds newSub →
      hasKey (nodeMapEntries newSub) k = false := by
    intro k h
    cases hh : hasKey (nodeMapEntries newSub) k
    · rfl
    · exact absurd ((hasKeyN_iff k).mp hh) h
  refine ⟨?_, ?_, ?_⟩
  · intro k
    rw [hresult, hasKey_iff, List.map_append, List.mem_append, e2]
    have hfilt : k ∈ (List.map Prod.fst ((nodeMapEntries root).filter
        (fun e => !(hasKey (nodeMapEntries oldSub) e.1 &&
          !(hasKey (nodeMapEntries newSub) e.1))))) ↔
        (k ∈ A ++ treeIds oldSub ++ B ∧
          ¬(k ∈ treeIds oldSub ∧ k ∉ treeIds newSub)) := by
      constructor
      · intro hk
        rcases List.mem_map.mp hk with ⟨e, he, hek⟩
        have hmf := List.mem_filter.mp he
        have hkmem : k ∈ A ++ treeIds oldSub ++ B := by
          rw [← hkeysR]
          exact List.mem_map.mpr ⟨e, hmf.1, hek⟩
        refine ⟨hkmem, ?_⟩
        intro ⟨hko, hkn⟩
        have hP := hmf.2
        rw [hek, (hasKeyO_iff k).mpr hko, hkN_false k hkn] at hP
        simp at hP
      · intro ⟨hkmem, hq⟩
        rw [← hkeysR] at hkmem
        rcases List.mem_map.mp hkmem with ⟨e, he, hek⟩
        refine List.mem_map.mpr ⟨e, List.mem_filter.mpr ⟨he, ?_⟩, hek⟩
        rw [hek]
        by_cases hko : k ∈ treeIds oldSub
        · have hkn : k ∈ treeIds newSub := by
            by_contra hc
            exact hq ⟨hko, hc⟩
          rw [(hasKeyN_iff k).mpr hkn]
          simp
        · rw [hkO_false k hko]
          simp
    rw [hfilt, hkeysN]
    simp only [List.mem_append]
    constructor
    · rintro (⟨hmem, hq⟩ | hn)
      · rcases hmem with (hA | hO) | hB
        · exact Or.inl (Or.inl hA)
        · by_cases hn : k ∈ treeIds newSub
          · exact Or.inl (Or.inr hn)
          · exact absurd ⟨hO, hn⟩ hq
        · exact Or.inr hB
      · exact Or.inl (Or.inr hn)
    · rintro ((hA | hN) | hB)
      · exact Or.inl ⟨Or.inl (Or.inl hA), fun ⟨hko, _⟩ => hAO k hA hko⟩
      · exact Or.inr hN
      · exact Or.inl ⟨Or.inr hB, fun ⟨hko, _⟩ => hBO k hB hko⟩
  · intro k hk
    rw [hresult, jsLookup_append]
    have hs : (jsLookup (nodeMapEntries newSub) k).isSome = true :=
      (jsLookup_isSome_iff _ k).mpr ((hasKey_iff _ k).mp hk)
    cases h : jsLookup (nodeMapEntries newSub) k with
    | none => rw [h] at hs; exact Bool.noConfusion hs
    | some v => rfl
  · intro k hkO hkN
    rw [hresult, jsLookup_append]
    have h1 : jsLookup (nodeMapEntries newSub) k = none := by
      rw [jsLookup_eq_none_iff]
      intro e he hek
      have : hasKey (nodeMapEntries newSub) k = true := by
        rw [hasKey_iff]
        exact List.mem_map.mpr ⟨e, he, hek⟩
      rw [hkN] at this
      exact Bool.noConfusion this
    rw [h1]
    rw [jsLookup_eq_none_iff]
    intro e he hek
    have hmf := List.mem_filter.mp he
    have hP := hmf.2
    rw [hek, hkO, hkN] at hP
    simp at hP

/-- C6 witness old subtree: a p (id 2) containing an i (id 4). -/
def c6wOld : SNode := .elem "p" 2 ⟨0, 5⟩ ⟨0, 20⟩ [] [.elem "i" 4 ⟨0, 8⟩ ⟨0, 12⟩ [] []]

/-- C6 witness new subtree: the reparsed p now containing an em
(fresh id 5); id 4 is a true deletion. -/
def c6wNew : SNode := .elem "p" 2 ⟨0, 5⟩ ⟨0, 21⟩ [] [.elem "em" 5 ⟨0, 8⟩ ⟨0, 13⟩ [] []]

/-- C6 witness previous tree. -/
def c6wRoot : SNode :=
  .elem "div" 1 ⟨0, 0⟩ ⟨0, 30⟩ [] [c6wOld, .elem "b" 3 ⟨0, 21⟩ ⟨0, 28⟩ [] []]

/-- C6 witness spliced tree. -/
def c6wNewRoot : SNode :=
  .elem "div" 1 ⟨0, 0⟩ ⟨0, 30⟩ [] [c6wNew, .elem "b" 3 ⟨0, 21⟩ ⟨0, 28⟩ [] []]

/-- Witness for claim C6 on a concrete splice (id 2 reparsed, id 4
deleted, id 5 inserted): the maintained map has key 5 exactly as the
spliced tree does, maps id 2 to its new node, and no longer has the
deleted id 4. -/
theorem c6_nodemap_invariant_witness :
    (hasKey (updatedNodeMap (nodeMapEntries c6wRoot) (nodeMapEntries c6wOld)
        (nodeMapEntries c6wNew)) 5 = true ↔ (5 : Int) ∈ treeIds c6wNewRoot) ∧
    jsLookup (updatedNodeMap (nodeMapEntries c6wRoot) (nodeMapEntries c6wOld)
        (nodeMapEntries c6wNew)) 2 = jsLookup (nodeMapEntries c6wNew) 2 ∧
    jsLookup (updatedNodeMap (nodeMapEntries c6wRoot) (nodeMapEntries c6wOld)
        (nodeMapEntries c6wNew)) 4 = none := by
  have h := c6_nodemap_invariant 2 c6wRoot c6wOld c6wNew c6wNewRoot
    (by decide) rfl rfl (by decide)
  exact ⟨h.1 5, h.2.1 2 (by decide), h.2.2 4 (by decide) (by decide)⟩

/-- Browser-observed DOM node as delivered by the external transport.
Modelled from the spec: the wire format of the remote renderer snapshot
is outside this repository; per the spec, elements carry the engine's
identifiers embedded as the reserved attribute data-cloud9-id, and text
nodes carry no identifier.  The reserved attribute's value is the
integer identifier it embeds. -/
inductive BNode where
  | elem (tag : String) (attributes : List (String × Int)) (children : List BNode)
  | text (content : String)

/-- A browser node after _processBrowserSimpleDOM's walk: elements carry
the extracted tagID (none when the reserved attribute was absent) and
the cleaned attribute map; text nodes carry the position-derived id
(parent element id, index in parent).  getTextNodeID itself lives in the
external HTMLSimpleDOM module; modelled from the spec: text-node
identifiers are assigned deterministically from position-in-parent. -/
inductive PNode where
  | elem (tag : String) (tagID : Option Int) (attributes : List (String × Int))
      (children : List PNode)
  | text (content : String) (tagID : Option Int × Nat)

/-- Attribute lookup in a browser attribute map. -/
def lookupAttr (attrs : List (String × Int)) (name : String) : Option Int :=
  (attrs.find? fun a => a.1 == name).map Prod.snd

/-- JS delete of an attribute key. -/
def removeAttr (attrs : List (String × Int)) (name : String) : List (String × Int) :=
  attrs.filter fun a => !(a.1 == name)

/-- The root variable of _processBrowserSimpleDOM is overwritten by each
matching assignment, so of two candidate matches the later one wins. -/
def orLater (earlier later : Option PNode) : Option PNode :=
  match later with
  | some x => some x
  | none => earlier

/-- tagID used for the root comparison; text nodes never carry an
element identifier. -/
def pTagID : PNode → Option Int
  | .elem _ tid _ _ => tid
  | .text _ _ => none

/-- Attribute map of a processed node. -/
def pAttrs : PNode → List (String × Int)
  | .elem _ _ attrs _ => attrs
  | .text _ _ => []

mutual

/-- _processElement from the source: extract the element's tagID from
the reserved attribute, delete that attribute, process the children
(assigning text-node ids from position-in-parent), and check the
element's id against the session root id after its children (so its
assignment overwrites theirs).  Returns the processed node and the last
root match in walk order.  (The source also accumulates a nodeMap on the
chosen root; the claims here do not concern it.) -/
def _processElement (sid : Int) : BNode → PNode × Option PNode
  | .text s => (PNode.text s (none, 0), none)
  | .elem tag attrs children =>
      let tid := lookupAttr attrs "data-cloud9-id"
      let elemNode := PNode.elem tag tid (removeAttr attrs "data-cloud9-id")
        (processChildren sid tid children 0).1
      (elemNode,
       orLater (processChildren sid tid children 0).2
         (if tid = some sid then some elemNode else none))

/-- The forEach over an element's children, carrying the parent id and
the running child index. -/
def processChildren (sid : Int) (parentID : Option Int) :
    List BNode → Nat → List PNode × Option PNode
  | [], _ => ([], none)
  | .text s :: rest, i =>
      (PNode.text s (parentID, i) :: (processChildren sid parentID rest (i + 1)).1,
       (processChildren sid parentID rest (i + 1)).2)
  | .elem tag2 attrs2 cs2 :: rest, i =>
      ((_processElement sid (.elem tag2 attrs2 cs2)).1 ::
          (processChildren sid parentID rest (i + 1)).1,
       orLater (_processElement sid (.elem tag2 attrs2 cs2)).2
         ((processChildren sid parentID rest (i + 1)).2))

end

/-- _processBrowserSimpleDOM from the source: process the tree, then
choose as comparison root the node whose id matched the session root id,
falling back to the processed browser root when nothing matched. -/
def _processBrowserSimpleDOM (browserRoot : BNode) (sessionRootTagID : Int) : PNode :=
  match (_processElement sessionRootTagID browserRoot).2 with
  | some r => r
  | none => (_processElement sessionRootTagID browserRoot).1

/-- _getBrowserDiff from the source: adapt the observed tree using the
session root's tagID and diff it against the session tree; domdiff is
the external HTMLDOMDiff module. -/
def _getBrowserDiff {E : Type} (domdiff : SNode → PNode → List E)
    (sessionRoot : SNode) (browserSimpleDOM : BNode) : List E × PNode × SNode :=
  let browserRoot := _processBrowserSimpleDOM browserSimpleDOM sessionRoot.nodeTagID
  (domdiff sessionRoot browserRoot, browserRoot, sessionRoot)

/-- Structural induction principle for browser trees. -/
theorem BNode.browserInduction {P : BNode → Prop}
    (ht : ∀ s, P (.text s))
    (he : ∀ tag attrs cs, (∀ c ∈ cs, P c) → P (.elem tag attrs cs)) :
    ∀ b, P b
  | .text s => ht s
  | .elem tag attrs cs =>
      he tag attrs cs (fun c hc =>
        have : sizeOf c < 1 + sizeOf tag + sizeOf attrs + sizeOf cs := by
          have h1 := List.sizeOf_lt_of_mem hc
          omega
        BNode.browserInduction ht he c)
termination_by b => sizeOf b

mutual

/-- All nodes of a processed tree (the node itself and its
descendants). -/
def pnodes : PNode → List PNode
  | .text s tid => [.text s tid]
  | .elem tag tid attrs cs => .elem tag tid attrs cs :: pnodesL cs

/-- All nodes of a list of processed trees. -/
def pnodesL : List PNode → List PNode
  | [] => []
  | c :: rest => pnodes c ++ pnodesL rest

end

/-- The position-derived text-id property of one processed node: every
direct text child's identifier is the pair (parent id, child index). -/
def textIdsOk : PNode → Prop
  | .elem _ tid _ cs => ∀ j s t, cs.get? j = some (.text s t) → t = (tid, j)
  | .text _ _ => True

theorem lookupAttr_removeAttr (attrs : List (String × Int)) (name : String) :
    lookupAttr (removeAttr attrs name) name = none := by
  induction attrs with
  | nil => rfl
  | cons a rest ih =>
      by_cases h : a.1 = name <;>
        simp_all [lookupAttr, removeAttr, List.filter_cons, List.find?]

theorem mem_pnodesL {p : PNode} : ∀ {cs : List PNode},
    p ∈ pnodesL cs ↔ ∃ c ∈ cs, p ∈ pnodes c := by
  intro cs
  induction cs with
  | nil => simp [pnodesL]
  | cons c rest ih => simp [pnodesL, List.mem_append, ih]

theorem processChildren_members (sid : Int) (pid : Option Int) :
    ∀ (cs : List BNode) (i : Nat), ∀ q ∈ (processChildren sid pid cs i).1,
      (∃ s j, q = PNode.text s (pid, j)) ∨
        (∃ c ∈ cs, q = (_processElement sid c).1) := by
  intro cs
  induction cs with
  | nil => intro i q hq; simp [processChildren] at hq
  | cons c rest ih =>
      intro i q hq
      cases c with
      | text s =>
          simp only [processChildren, List.mem_cons] at hq
          rcases hq with rfl | hq
          · exact Or.inl ⟨s, i, rfl⟩
          · rcases ih (i + 1) q hq with h | ⟨c2, hc2, he⟩
            · exact Or.inl h
            · exact Or.inr ⟨c2, by simp [hc2], he⟩
      | elem tag2 attrs2 cs2 =>
          simp only [processChildren, List.mem_cons] at hq
          rcases hq with rfl | hq
          · exact Or.inr ⟨.elem tag2 attrs2 cs2, by simp, rfl⟩
          · rcases ih (i + 1) q hq with h | ⟨c2, hc2, he⟩
            · exact Or.inl h
            · exact Or.inr ⟨c2, by simp [hc2], he⟩

theorem processChildren_textIds (sid : Int) (pid : Option Int) :
    ∀ (cs : List BNode) (i j : Nat) (s : String) (t : Option Int × Nat),
      (processChildren sid pid cs i).1.get? j = some (.text s t) →
      t = (pid, i + j) := by
  intro cs
  induction cs with
  | nil => intro i j s t h; simp [processChildren] at h
  | cons c rest ih =>
      intro i j s t h
      cases c with
      | text s2 =>
          cases j with
          | zero =>
              simp only [processChildren, List.get?] at h
              have h2 := Option.some.inj h
              injection h2 with hs ht
              rw [← ht]
              rfl
          | succ j2 =>
              simp only [processChildren, List.get?] at h
              have := ih (i + 1) j2 s t h
              rw [this]
              congr 1
              omega
      | elem tag2 attrs2 cs2 =>
          cases j with
          | zero =>
              simp only [processChildren, List.get?] at h
              cases hpe : (_processElement sid (.elem tag2 attrs2 cs2)).1 with
              | elem a b c d => rw [hpe] at h; exact PNode.noConfusion (Option.some.inj h)
              | text a b =>
                  simp only [_processElement] at hpe
                  exact PNode.noConfusion hpe
          | succ j2 =>
              simp only [processChildren, List.get?] at h
              have := ih (i + 1) j2 s t h
              rw [this]
              congr 1
              omega

theorem orLater_eq_none {a b : Option PNode} (h : orLater a b = none) :
    a = none ∧ b = none := by
  cases b with
  | some x => simp [orLater] at h
  | none => exact ⟨h, rfl⟩

theorem orLater_eq_some {a b : Option PNode} {r : PNode} (h : orLater a b = some r) :
    b = some r ∨ (b = none ∧ a = some r) := by
  cases b with
  | some x => simp only [orLater] at h; exact Or.inl h
  | none => exact Or.inr ⟨rfl, h⟩

theorem processChildren_match_some (sid : Int) (pid : Option Int) :
    ∀ cs : List BNode,
      (∀ c ∈ cs, ∀ r, (_processElement sid c).2 = some r →
        r ∈ pnodes (_processElement sid c).1 ∧ pTagID r = some sid) →
      ∀ (i : Nat) (r : PNode), (processChildren sid pid cs i).2 = some r →
        r ∈ pnodesL (processChildren sid pid cs i).1 ∧ pTagID r = some sid := by
  intro cs
  induction cs with
  | nil => intro _ i r h; simp [processChildren] at h
  | cons c rest ih =>
      intro hmem i r h
      cases c with
      | text s =>
          simp only [processChildren] at h ⊢
          obtain ⟨hr, htag⟩ := ih (fun d hd => hmem d (by simp [hd])) (i + 1) r h
          refine ⟨?_, htag⟩
          simp only [pnodesL, List.mem_append]
          exact Or.inr hr
      | elem tag2 attrs2 cs2 =>
          simp only [processChildren] at h ⊢
          rcases orLater_eq_some h with hrest | ⟨hnone, hc⟩
          · obtain ⟨hr, htag⟩ := ih (fun d hd => hmem d (by simp [hd])) (i + 1) r hrest
            refine ⟨?_, htag⟩
            simp only [pnodesL, List.mem_append]
            exact Or.inr hr
          · obtain ⟨hr, htag⟩ := hmem (.elem tag2 attrs2 cs2) (by simp) r hc
            refine ⟨?_, htag⟩
            simp only [pnodesL, List.mem_append]
            exact Or.inl hr

theorem processElement_match_some (sid : Int) :
    ∀ (b : BNode) (r : PNode), (_processElement sid b).2 = some r →
      r ∈ pnodes (_processElement sid b).1 ∧ pTagID r = some sid := by
  intro b
  induction b using BNode.browserInduction with
  | ht s => intro r h; simp [_processElement] at h
  | he tag attrs cs ih =>
      intro r h
      simp only [_processElement] at h ⊢
      rcases orLater_eq_some h with hself | ⟨hnone, hchild⟩
      · by_cases htid : lookupAttr attrs "data-cloud9-id" = some sid
        · rw [if_pos htid] at hself
          injection hself with hr
          subst hr
          exact ⟨by simp [pnodes], by simp [pTagID, htid]⟩
        · rw [if_neg htid] at hself
          exact Option.noConfusion hself
      · obtain ⟨hr, htag⟩ := processChildren_match_some sid _ cs ih 0 r hchild
        refine ⟨?_, htag⟩
        simp only [pnodes, List.mem_cons]
        exact Or.inr hr

theorem processChildren_match_none (sid : Int) (pid : Option Int) :
    ∀ cs : List BNode,
      (∀ c ∈ cs, (_processElement sid c).2 = none →
        ∀ p ∈ pnodes (_processElement sid c).1, pTagID p ≠ some sid) →
      ∀ i : Nat, (processChildren sid pid cs i).2 = none →
        ∀ p ∈ pnodesL (processChildren sid pid cs i).1, pTagID p ≠ some sid := by
  intro cs
  induction cs with
  | nil => intro _ i _ p hp; simp [processChildren, pnodesL] at hp
  | cons c rest ih =>
      intro hmem i h p hp
      cases c with
      | text s =>
          simp only [processChildren] at h hp
          simp only [pnodesL, List.mem_append] at hp
          rcases hp with hp | hp
          · simp only [pnodes] at hp
            rcases List.mem_singleton.mp hp with rfl
            simp [pTagID]
          · exact ih (fun d hd => hmem d (by simp [hd])) (i + 1) h p hp
      | elem tag2 attrs2 cs2 =>
          simp only [processChildren] at h hp
          obtain ⟨hc, hrest⟩ := orLater_eq_none h
          simp only [pnodesL, List.mem_append] at hp
          rcases hp with hp | hp
          · exact hmem (.elem tag2 attrs2 cs2) (by simp) hc p hp
          · exact ih (fun d hd => hmem d (by simp [hd])) (i + 1) hrest p hp

theorem processElement_match_none (sid : Int) :
    ∀ b : BNode, (_processElement sid b).2 = none →
      ∀ p ∈ pnodes (_processElement sid b).1, pTagID p ≠ some sid := by
  intro b
  induction b using BNode.browserInduction with
  | ht s =>
      intro _ p hp
      rcases List.mem_singleton.mp (by simpa [_processElement, pnodes] using hp) with rfl
      simp [pTagID]
  | he tag attrs cs ih =>
      intro h p hp
      simp only [_processElement] at h hp
      obtain ⟨hchild, hself⟩ := orLater_eq_none h
      simp only [pnodes, List.mem_cons] at hp
      rcases hp with rfl | hp
      · have htid : ¬ lookupAttr attrs "data-cloud9-id" = some sid := by
          intro hc
          rw [if_pos hc] at hself
          exact Option.noConfusion hself
        simpa [pTagID] using htid
      · exact processChildren_match_none sid _ cs ih 0 hchild p hp

theorem processElement_strips (sid : Int) :
    ∀ b : BNode, ∀ p ∈ pnodes (_processElement sid b).1,
      lookupAttr (pAttrs p) "data-cloud9-id" = none := by
  intro b
  induction b using BNode.browserInduction with
  | ht s =>
      intro p hp
      rcases List.mem_singleton.mp (by simpa [_processElement, pnodes] using hp) with rfl
      rfl
  | he tag attrs cs ih =>
      intro p hp
      simp only [_processElement, pnodes, List.mem_cons] at hp
      rcases hp with rfl | hp
      · exact lookupAttr_removeAttr attrs _
      · rcases mem_pnodesL.mp hp with ⟨q, hq, hpq⟩
        rcases processChildren_members sid _ cs 0 q hq with ⟨s, j, rfl⟩ | ⟨c, hc, rfl⟩
        · rcases List.mem_singleton.mp (by simpa [pnodes] using hpq) with rfl
          rfl
        · exact ih c hc p hpq

theorem processElement_textIds (sid : Int) :
    ∀ b : BNode, ∀ p ∈ pnodes (_processElement sid b).1, textIdsOk p := by
  intro b
  induction b using BNode.browserInduction with
  | ht s =>
      intro p hp
      rcases List.mem_singleton.mp (by simpa [_processElement, pnodes] using hp) with rfl
      trivial
  | he tag attrs cs ih =>
      intro p hp
      simp only [_processElement, pnodes, List.mem_cons] at hp
      rcases hp with rfl | hp
      · intro j s t hj
        have := processChildren_textIds sid _ cs 0 j s t hj
        rw [this]
        congr 1
        omega
      · rcases mem_pnodesL.mp hp with ⟨q, hq, hpq⟩
        rcases processChildren_members sid _ cs 0 q hq with ⟨s, j, rfl⟩ | ⟨c, hc, rfl⟩
        · rcases List.mem_singleton.mp (by simpa [pnodes] using hpq) with rfl
          trivial
        · exact ih c hc p hpq

/-- Claim C7: the reconciler.  (1) Every node of the processed observed
tree has the reserved data-cloud9-id attribute removed from its
attribute map (its identifier having been taken from it).  (2) Every
text node's identifier is derived deterministically from its position:
it is the pair (parent element id, index in parent).  (3) When some
observed node's identifier matches the local tree's root identifier, the
comparison root is such a node (the last match in walk order) -- a node
of the processed tree whose id is the session root id.  (4) When no
observed node matches, the comparison root falls back to the processed
observed root. -/
theorem c7_reconciler_adaptation :
    (∀ (sid : Int) (b : BNode), ∀ p ∈ pnodes (_processElement sid b).1,
      lookupAttr (pAttrs p) "data-cloud9-id" = none) ∧
    (∀ (sid : Int) (b : BNode), ∀ p ∈ pnodes (_processElement sid b).1,
      textIdsOk p) ∧
    (∀ (sid : Int) (b : BNode) (r : PNode), (_processElement sid b).2 = some r →
      _processBrowserSimpleDOM b sid = r ∧
      r ∈ pnodes (_processElement sid b).1 ∧ pTagID r = some sid) ∧
    (∀ (sid : Int) (b : BNode), (_processElement sid b).2 = none →
      _processBrowserSimpleDOM b sid = (_processElement sid b).1 ∧
      ∀ p ∈ pnodes (_processElement sid b).1, pTagID p ≠ some sid) := by
  refine ⟨processElement_strips, processElement_textIds, ?_, ?_⟩
  · intro sid b r h
    obtain ⟨hr, htag⟩ := processElement_match_some sid b r h
    refine ⟨?_, hr, htag⟩
    simp [_processBrowserSimpleDOM, h]
  · intro sid b h
    refine ⟨?_, processElement_match_none sid b h⟩
    simp [_processBrowserSimpleDOM, h]

/-- C7 witness observed tree: the renderer wrapped the content in html
and body elements that the source never specified; only the inner div
carries the session root id 1. -/
def c7wBrowser : BNode :=
  .elem "html" [] [.elem "body" []
    [.elem "div" [("data-cloud9-id", 1)] [.text "hi"]]]

/-- C7 witness: the processed inner div, with the reserved attribute
stripped and its text child id derived from position. -/
def c7wDiv : PNode := .elem "div" (some 1) [] [.text "hi" (some 1, 0)]

/-- Witness for claim C7: on the concrete wrapper scenario the
comparison root is the matching div, not the injected wrapper; its
attribute map no longer holds the reserved attribute; and with a
non-matching session root id the reconciler falls back to the processed
observed root. -/
theorem c7_reconciler_adaptation_witness :
    (_processBrowserSimpleDOM c7wBrowser 1 = c7wDiv ∧
      c7wDiv ∈ pnodes (_processElement 1 c7wBrowser).1 ∧
      pTagID c7wDiv = some 1) ∧
    lookupAttr (pAttrs c7wDiv) "data-cloud9-id" = none ∧
    textIdsOk c7wDiv ∧
    _processBrowserSimpleDOM c7wBrowser 5 = (_processElement 5 c7wBrowser).1 :=
  ⟨c7_reconciler_adaptation.2.2.1 1 c7wBrowser c7wDiv rfl,
   c7_reconciler_adaptation.1 1 c7wBrowser c7wDiv
     (by simp [_processElement, pnodes, pnodesL, processChildren, c7wBrowser, c7wDiv,
       lookupAttr, removeAttr, List.find?]),
   c7_reconciler_adaptation.2.1 1 c7wBrowser c7wDiv
     (by simp [_processElement, pnodes, pnodesL, processChildren, c7wBrowser, c7wDiv,
       lookupAttr, removeAttr, List.find?]),
   (c7_reconciler_adaptation.2.2.2 5 c7wBrowser rfl).1⟩

end HTMLInstr
